import Mathlib

/-!
Shallow embedding of `simulator_full.py` (operating-system resource-contention
simulator): memory manager with FIFO/LRU page replacement, exclusive file
locks with FIFO wait queues, Round-Robin / SJF / Priority schedulers built on
a binary heap, and the tick-driven simulation engine, together with proofs of
the specification claims.

Python dictionaries are modelled as insertion-ordered association lists:
assignment updates an existing key in place or appends a new one at the end,
`pop` removes the entry, and iteration order is list order, exactly as in
CPython.  Fallible operations (`dict.pop` on a missing key, `deque.popleft`
on an empty deque, `min` of an empty collection, `randrange(0, 0)`) are
modelled with `Option`, `none` standing for the raised exception.
-/

/-- Lookup in an insertion-ordered association list (Python `d[k]` / `k in d`). -/
def alookup [DecidableEq κ] (k : κ) : List (κ × β) → Option β
  | [] => none
  | (a, b) :: xs => if a = k then some b else alookup k xs

/-- Assignment `d[k] = v` on an insertion-ordered association list: update in
place if the key is present, else append at the end. -/
def aset [DecidableEq κ] (k : κ) (v : β) : List (κ × β) → List (κ × β)
  | [] => [(k, v)]
  | (a, b) :: xs => if a = k then (k, v) :: xs else (a, b) :: aset k v xs

/-- Removal `d.pop(k, None)` on an association list: drop the entry if present. -/
def aerase [DecidableEq κ] (k : κ) : List (κ × β) → List (κ × β)
  | [] => []
  | (a, b) :: xs => if a = k then xs else (a, b) :: aerase k xs

/-- Remove the first occurrence of an element from a list (`deque.remove` with
the `ValueError` swallowed). -/
def eraseFirst [DecidableEq α] (x : α) : List α → List α
  | [] => []
  | y :: ys => if y = x then ys else y :: eraseFirst x ys

/-- Python `min(items, key=lambda kv: kv[1])`: the first pair attaining the
minimal value, scanning in list (= dict insertion) order. -/
def minByVal : List (α × Int) → Option (α × Int)
  | [] => none
  | x :: xs =>
    match minByVal xs with
    | none => some x
    | some y => if y.2 < x.2 then some y else some x

-- -------------------------
-- Memory Manager
-- -------------------------

/-- State of `MemoryManager`: fixed-capacity frame table with FIFO/LRU
replacement.  `frames` holds `(frame_id, pid, page)` triples, `frame_map`
maps a resident `(pid, page)` key to its frame, `fifo_queue` records load
order, `last_used` the last-access tick per resident key, and `page_faults`
the per-pid fault counters (a `defaultdict(int)`). -/
structure MemoryManager where
  num_frames : Nat
  replacement : String
  frames : List (Nat × Nat × Nat)
  frame_map : List ((Nat × Nat) × Nat)
  fifo_queue : List (Nat × Nat)
  time : Int
  last_used : List ((Nat × Nat) × Int)
  page_faults : List (Nat × Int)
  deriving DecidableEq, Repr

/-- Python `str.upper()` on ASCII input: uppercase each character. -/
def pyUpper (s : String) : String :=
  String.mk (s.data.map Char.toUpper)

/-- `MemoryManager.__init__(num_frames, replacement)`. -/
def mkMemoryManager (num_frames : Nat) (replacement : String) : MemoryManager :=
  { num_frames := num_frames
    replacement := pyUpper replacement
    frames := []
    frame_map := []
    fifo_queue := []
    time := 0
    last_used := []
    page_faults := [] }

/-- Replace the first frame triple carrying the victim frame id with the new
occupant (the `for i,(fid,p,v) in enumerate(self.frames)` loop). -/
def replaceFrame (victim_frame pid page : Nat) : List (Nat × Nat × Nat) → List (Nat × Nat × Nat)
  | [] => []
  | (fid, p, v) :: xs =>
    if fid = victim_frame then (fid, pid, page) :: xs
    else (fid, p, v) :: replaceFrame victim_frame pid page xs

/-- `MemoryManager.load_page`: free-frame fill, else FIFO/LRU victim selection
and eviction.  `none` models the runtime exceptions raised when the frame
table is full but the FIFO queue (or the `last_used` table) is empty, or the
victim key is missing from `frame_map`. -/
def MemoryManager.load_page (m : MemoryManager) (pid page : Nat) (tick : Int) :
    Option MemoryManager :=
  let key := (pid, page)
  if m.frames.length < m.num_frames then
    let frame_id := m.frames.length
    some { m with
      frames := m.frames ++ [(frame_id, pid, page)]
      frame_map := aset key frame_id m.frame_map
      fifo_queue := m.fifo_queue ++ [key]
      last_used := aset key tick m.last_used }
  else
    let victimFq : Option ((Nat × Nat) × List (Nat × Nat)) :=
      if m.replacement = "FIFO" then
        match m.fifo_queue with
        | [] => none
        | v :: rest => some (v, rest)
      else if m.replacement = "LRU" then
        match minByVal m.last_used with
        | none => none
        | some (v, _) => some (v, eraseFirst v m.fifo_queue)
      else
        match m.fifo_queue with
        | [] => none
        | v :: rest => some (v, rest)
    match victimFq with
    | none => none
    | some (victim, fq) =>
      match alookup victim m.frame_map with
      | none => none
      | some victim_frame =>
        some { m with
          frames := replaceFrame victim_frame pid page m.frames
          frame_map := aset key victim_frame (aerase victim m.frame_map)
          fifo_queue := fq ++ [key]
          last_used := aset key tick (aerase victim m.last_used) }

/-- `MemoryManager.access_page`: returns whether the page was resident before
the call; on a miss, counts a fault for the pid and loads the page. -/
def MemoryManager.access_page (m : MemoryManager) (pid page : Nat) (tick : Int) :
    Option (Bool × MemoryManager) :=
  let m := { m with time := tick }
  let key := (pid, page)
  match alookup key m.frame_map with
  | some _ => some (true, { m with last_used := aset key tick m.last_used })
  | none =>
    let m := { m with
      page_faults := aset pid ((alookup pid m.page_faults).getD 0 + 1) m.page_faults }
    (m.load_page pid page tick).map (fun m2 => (false, m2))

/-- Apply a finite sequence of `access_page` calls `(pid, page, tick)` to a
memory manager; `none` if any call raises. -/
def applyAccesses : List (Nat × Nat × Int) → MemoryManager → Option MemoryManager
  | [], m => some m
  | (pid, page, tick) :: rest, m =>
    match m.access_page pid page tick with
    | none => none
    | some (_, m2) => applyAccesses rest m2

-- -------------------------
-- File System Simulator
-- -------------------------

/-- State of `FileSimulator`: exclusive per-file locks `(holder pid, release
tick)`, per-file FIFO wait queues of `(pid, op, duration)` (a
`defaultdict(deque)`), a conflict counter, and a chronological log of
`(tick, pid, filename, op, outcome)` entries. -/
structure FileSimulator where
  locks : List (String × (Nat × Int))
  waiting : List (String × List (Nat × String × Int))
  conflicts : Int
  log : List (Int × Nat × String × String × String)
  deriving DecidableEq, Repr

/-- `FileSimulator.__init__()`. -/
def mkFileSimulator : FileSimulator :=
  { locks := [], waiting := [], conflicts := 0, log := [] }

/-- Wait queue of a file (`self.waiting[filename]` as a `defaultdict`). -/
def FileSimulator.getWaiting (fs : FileSimulator) (filename : String) :
    List (Nat × String × Int) :=
  (alookup filename fs.waiting).getD []

/-- `FileSimulator.request`: grant the lock when the file is free (release
tick `tick + duration`), otherwise queue the request and count a conflict. -/
def FileSimulator.request (fs : FileSimulator) (pid : Nat) (filename : String)
    (op : String) (tick : Int) (duration : Int) : (Bool × Option Int) × FileSimulator :=
  match alookup filename fs.locks with
  | none =>
    ((true, some (tick + duration)),
      { fs with
        locks := aset filename (pid, tick + duration) fs.locks
        log := fs.log ++ [(tick, pid, filename, op, "granted")] })
  | some _ =>
    ((false, none),
      { fs with
        waiting := aset filename (fs.getWaiting filename ++ [(pid, op, duration)]) fs.waiting
        conflicts := fs.conflicts + 1
        log := fs.log ++ [(tick, pid, filename, op, "queued")] })

/-- Body of the `for fname in to_release` loop of `release_expired`: pop the
lock and, if the file's wait queue is non-empty, grant its head a fresh lock
until `tick + duration`. -/
def releaseOne (tick : Int) (fs : FileSimulator) (fname : String) : FileSimulator :=
  let fs := { fs with locks := aerase fname fs.locks }
  match (alookup fname fs.waiting).getD [] with
  | [] => { fs with waiting := aset fname [] fs.waiting }
  | (pid, op, duration) :: rest =>
    { fs with
      waiting := aset fname rest fs.waiting
      locks := aset fname (pid, tick + duration) fs.locks
      log := fs.log ++ [(tick, pid, fname, op, "granted_from_queue")] }

/-- `FileSimulator.release_expired`: snapshot the files whose release tick is
`<= tick`, then release each, promoting the head waiter if any. -/
def FileSimulator.release_expired (fs : FileSimulator) (tick : Int) : FileSimulator :=
  let to_release := (fs.locks.filter (fun kv => kv.2.2 ≤ tick)).map Prod.fst
  to_release.foldl (releaseOne tick) fs

-- -------------------------
-- Process entity
-- -------------------------

/-- The `IOOperation` dataclass: an I/O event scheduled at an absolute tick. -/
structure IOOperation where
  time : Int
  filename : String
  op : String
  duration : Int
  deriving DecidableEq, Repr

/-- The `Process` dataclass with its mutable run-time state.  `page_table` is
informational only (set once in `__post_init__`, never read afterwards). -/
structure Process where
  pid : Nat
  arrival : Int
  total_cpu : Int
  priority : Int
  pages : Nat
  io_ops : List IOOperation
  remaining : Int
  start_time : Option Int
  finish_time : Option Int
  waiting_time : Int
  page_table : List (Nat × Bool)
  deriving DecidableEq, Repr

/-- `Process(...)` construction including `__post_init__`. -/
def mkProcess (pid : Nat) (arrival total_cpu priority : Int) (pages : Nat)
    (io_ops : List IOOperation) : Process :=
  { pid := pid
    arrival := arrival
    total_cpu := total_cpu
    priority := priority
    pages := pages
    io_ops := io_ops
    remaining := total_cpu
    start_time := none
    finish_time := none
    waiting_time := 0
    page_table := (List.range pages).map (fun i => (i, false)) }

-- -------------------------
-- heapq (binary min-heap on lists, as in CPython's heapq module)
-- -------------------------

/-- Heap entries `(remaining-or-priority key, arrival, pid)`; the Python code
pushes 4-tuples ending in the process object, but distinct pids make the
fourth component unreachable by tuple comparison. -/
abbrev HeapEntry := Int × Int × Nat

/-- Python tuple `<` on heap entries (lexicographic). -/
def entryLt (a b : HeapEntry) : Bool :=
  decide (a.1 < b.1 ∨ (a.1 = b.1 ∧ (a.2.1 < b.2.1 ∨ (a.2.1 = b.2.1 ∧ a.2.2 < b.2.2))))

/-- Read a heap cell, with a dummy default for out-of-range indices (all uses
stay in range). -/
def hget (heap : List HeapEntry) (i : Nat) : HeapEntry :=
  (heap.get? i).getD (0, 0, 0)

/-- The loop of `heapq._siftdown`: bubble `newitem` up from `pos` towards
`startpos`.  `fuel` bounds the iterations (`pos` strictly decreases). -/
def siftdownLoop (newitem : HeapEntry) (startpos : Nat) :
    Nat → List HeapEntry → Nat → List HeapEntry
  | 0, heap, pos => heap.set pos newitem
  | fuel + 1, heap, pos =>
    if startpos < pos then
      let parentpos := (pos - 1) / 2
      let parent := hget heap parentpos
      if entryLt newitem parent then
        siftdownLoop newitem startpos fuel (heap.set pos parent) parentpos
      else heap.set pos newitem
    else heap.set pos newitem

/-- `heapq._siftdown(heap, startpos, pos)`. -/
def siftdown (heap : List HeapEntry) (startpos pos : Nat) : List HeapEntry :=
  siftdownLoop (hget heap pos) startpos pos heap pos

/-- The child-chasing loop of `heapq._siftup`: returns the heap with parents
moved down plus the final position. -/
def siftupLoop (endpos : Nat) : Nat → List HeapEntry → Nat → List HeapEntry × Nat
  | 0, heap, pos => (heap, pos)
  | fuel + 1, heap, pos =>
    let childpos := 2 * pos + 1
    if childpos < endpos then
      let rightpos := childpos + 1
      let childpos :=
        if rightpos < endpos && !(entryLt (hget heap childpos) (hget heap rightpos)) then
          rightpos
        else childpos
      siftupLoop endpos fuel (heap.set pos (hget heap childpos)) childpos
    else (heap, pos)

/-- `heapq._siftup(heap, pos)`. -/
def siftup (heap : List HeapEntry) (pos : Nat) : List HeapEntry :=
  let endpos := heap.length
  let newitem := hget heap pos
  let hp := siftupLoop endpos endpos heap pos
  siftdownLoop newitem pos hp.2 (hp.1.set hp.2 newitem) hp.2

/-- `heapq.heappush(heap, item)`. -/
def heappush (heap : List HeapEntry) (item : HeapEntry) : List HeapEntry :=
  let h := heap ++ [item]
  siftdown h 0 (h.length - 1)

/-- `heapq.heappop(heap)`; `none` models the `IndexError` on an empty heap
(never reached: callers guard on emptiness). -/
def heappop (heap : List HeapEntry) : Option (HeapEntry × List HeapEntry) :=
  match heap with
  | [] => none
  | _ :: _ =>
    let lastelt := hget heap (heap.length - 1)
    let rest := heap.dropLast
    match rest with
    | [] => some (lastelt, [])
    | _ :: _ =>
      let returnitem := hget rest 0
      some (returnitem, siftup (rest.set 0 lastelt) 0)

-- -------------------------
-- Scheduler implementations
-- -------------------------

/-- `RoundRobinScheduler`: plain FIFO queue of process references (pids). -/
structure RoundRobinScheduler where
  quantum : Int
  queue : List Nat
  deriving DecidableEq, Repr

/-- `SJFScheduler`: min-heap keyed by `(remaining, arrival, pid)`; the
`preemptive` flag is stored but never consulted by any method. -/
structure SJFScheduler where
  preemptive : Bool
  heap : List HeapEntry
  deriving DecidableEq, Repr

/-- `PriorityScheduler`: min-heap keyed by `(priority key, arrival, pid)`
where the key is negated when larger numbers mean higher priority. -/
structure PriorityScheduler where
  higher_value : Bool
  heap : List HeapEntry
  deriving DecidableEq, Repr

/-- `SJFScheduler.add_process`. -/
def SJFScheduler.add_process (s : SJFScheduler) (p : Process) : SJFScheduler :=
  { s with heap := heappush s.heap (p.remaining, p.arrival, p.pid) }

/-- `SJFScheduler.tick`: pop the least entry, returning the process (pid). -/
def SJFScheduler.tick (s : SJFScheduler) : Option Nat × SJFScheduler :=
  match s.heap with
  | [] => (none, s)
  | _ :: _ =>
    match heappop s.heap with
    | none => (none, s)
    | some (e, h) => (some e.2.2, { s with heap := h })

/-- `SJFScheduler.has_ready`. -/
def SJFScheduler.has_ready (s : SJFScheduler) : Bool :=
  !s.heap.isEmpty

/-- `PriorityScheduler.add_process`. -/
def PriorityScheduler.add_process (s : PriorityScheduler) (p : Process) : PriorityScheduler :=
  let key := if s.higher_value then -p.priority else p.priority
  { s with heap := heappush s.heap (key, p.arrival, p.pid) }

/-- `PriorityScheduler.tick`. -/
def PriorityScheduler.tick (s : PriorityScheduler) : Option Nat × PriorityScheduler :=
  match s.heap with
  | [] => (none, s)
  | _ :: _ =>
    match heappop s.heap with
    | none => (none, s)
    | some (e, h) => (some e.2.2, { s with heap := h })

/-- `PriorityScheduler.has_ready`. -/
def PriorityScheduler.has_ready (s : PriorityScheduler) : Bool :=
  !s.heap.isEmpty

/-- `RoundRobinScheduler.add_process`. -/
def RoundRobinScheduler.add_process (s : RoundRobinScheduler) (p : Process) :
    RoundRobinScheduler :=
  { s with queue := s.queue ++ [p.pid] }

/-- `RoundRobinScheduler.tick`. -/
def RoundRobinScheduler.tick (s : RoundRobinScheduler) : Option Nat × RoundRobinScheduler :=
  match s.queue with
  | [] => (none, s)
  | p :: rest => (some p, { s with queue := rest })

/-- `RoundRobinScheduler.has_ready`. -/
def RoundRobinScheduler.has_ready (s : RoundRobinScheduler) : Bool :=
  !s.queue.isEmpty

/-- The polymorphic scheduler handed to the engine (closed set of variants). -/
inductive Sched where
  | rr (s : RoundRobinScheduler)
  | sjf (s : SJFScheduler)
  | prio (s : PriorityScheduler)
  deriving DecidableEq, Repr

/-- Virtual dispatch of `add_process`. -/
def Sched.add (s : Sched) (p : Process) : Sched :=
  match s with
  | .rr sc => .rr (sc.add_process p)
  | .sjf sc => .sjf (sc.add_process p)
  | .prio sc => .prio (sc.add_process p)

/-- Virtual dispatch of `tick`. -/
def Sched.tick (s : Sched) : Option Nat × Sched :=
  match s with
  | .rr sc => (sc.tick.1, .rr sc.tick.2)
  | .sjf sc => (sc.tick.1, .sjf sc.tick.2)
  | .prio sc => (sc.tick.1, .prio sc.tick.2)

/-- Virtual dispatch of `has_ready`. -/
def Sched.hasReady (s : Sched) : Bool :=
  match s with
  | .rr sc => sc.has_ready
  | .sjf sc => sc.has_ready
  | .prio sc => sc.has_ready

/-- The engine's `isinstance(self.scheduler, RoundRobinScheduler)` test. -/
def Sched.isRR (s : Sched) : Bool :=
  match s with
  | .rr _ => true
  | _ => false

-- -------------------------
-- Simulator
-- -------------------------

/-- The engine state during `Simulator.run`: the process store (Python objects
are mutable references, modelled as an insertion-ordered pid-keyed store), the
scheduler, the two resource managers, the loop-local variables of `run`
(`pending`, `running_proc`, `rr_quantum_left`) and the metrics accumulators. -/
structure Simulator where
  procs : List (Nat × Process)
  sched : Sched
  mem : MemoryManager
  fs : FileSimulator
  quantum : Int
  time : Int
  pending : List Process
  running : Option Nat
  rr_quantum_left : Int
  finished : List Nat
  cpu_busy_ticks : Int
  total_ticks : Int
  rngCount : Nat
  deriving DecidableEq, Repr

/-- Stable insertion into a list sorted by arrival, placing the new process
after every element with arrival `<=` its own. -/
def insertByArrival (p : Process) : List Process → List Process
  | [] => [p]
  | q :: qs => if q.arrival ≤ p.arrival then q :: insertByArrival p qs else p :: q :: qs

/-- The stable `self.ready_list.sort(key=lambda p: p.arrival)`. -/
def sortByArrival (l : List Process) : List Process :=
  l.foldl (fun acc p => insertByArrival p acc) []

/-- Construction of a `Simulator`, the `add_process` calls (in list order) and
the prologue of `run` (arrival sort, `pending`, `rr_quantum_left`). -/
def mkSimulator (sched : Sched) (mem : MemoryManager) (quantum : Int)
    (procs : List Process) : Simulator :=
  { procs := procs.map (fun p => (p.pid, p))
    sched := sched
    mem := mem
    fs := mkFileSimulator
    quantum := quantum
    time := 0
    pending := sortByArrival procs
    running := none
    rr_quantum_left := quantum
    finished := []
    cpu_busy_ticks := 0
    total_ticks := 0
    rngCount := 0 }

/-- Write back a (mutated) process record into the store. -/
def Simulator.setProc (st : Simulator) (p : Process) : Simulator :=
  { st with procs := aset p.pid p st.procs }

/-- The `while pending and pending[0].arrival <= self.time` admission loop. -/
def admitPending (time : Int) (sched : Sched) : List Process → Sched × List Process
  | [] => (sched, [])
  | p :: rest =>
    if p.arrival ≤ time then admitPending time (sched.add p) rest
    else (sched, p :: rest)

/-- Admission phase of one loop iteration. -/
def Simulator.admitArrivals (st : Simulator) : Simulator :=
  let sp := admitPending st.time st.sched st.pending
  { st with sched := sp.1, pending := sp.2 }

/-- The engine's I/O-event match: events whose scheduled time equals the
current tick (`[io for io in proc.io_ops if io.time == self.time]`). -/
def ioNow (p : Process) (t : Int) : List IOOperation :=
  p.io_ops.filter (fun io => io.time == t)

/-- The `for io in io_now` loop: request each lock at the running clock value;
a grant consumes the duration from `remaining` and advances the clock, a
denial bumps `waiting_time` and stops the loop.  Returns the updated file
simulator, clock, process record, and whether a denial occurred. -/
def processIOs (fs : FileSimulator) (time : Int) (p : Process) :
    List IOOperation → FileSimulator × Int × Process × Bool
  | [] => (fs, time, p, false)
  | io :: rest =>
    let r := fs.request p.pid io.filename io.op time io.duration
    if r.1.1 then
      processIOs r.2 (time + io.duration)
        { p with remaining := p.remaining - io.duration } rest
    else
      (r.2, time, { p with waiting_time := p.waiting_time + 1 }, true)

/-- Body of one loop iteration once a process is dispatched: the memory
access, the I/O handling, the CPU tick, completion and quantum bookkeeping.
`none` models the runtime errors (`randrange(0, 0)`, a missing store entry,
or an exception inside `access_page`). -/
def Simulator.runBody (rng : Nat → Nat) (pid : Nat) (st : Simulator) : Option Simulator :=
  match alookup pid st.procs with
  | none => none
  | some p =>
    if p.pages = 0 then none
    else
      let page := rng st.rngCount % p.pages
      let st := { st with rngCount := st.rngCount + 1 }
      match st.mem.access_page pid page st.time with
      | none => none
      | some (present, mem2) =>
        let st := { st with mem := mem2 }
        if !present then
          some { st with time := st.time + 1, total_ticks := st.total_ticks + 1 }
        else
          let r := processIOs st.fs st.time p (ioNow p st.time)
          let p1 := r.2.2.1
          let st := { st.setProc p1 with fs := r.1, time := r.2.1 }
          if r.2.2.2 then
            some { st with sched := st.sched.add p1, running := none }
          else
            let p2 := { p1 with remaining := p1.remaining - 1 }
            let st := { st.setProc p2 with
              cpu_busy_ticks := st.cpu_busy_ticks + 1
              total_ticks := st.total_ticks + 1
              time := st.time + 1 }
            if p2.remaining ≤ 0 then
              let p3 := { p2 with finish_time := some st.time }
              some { st.setProc p3 with finished := st.finished ++ [pid], running := none }
            else
              let rrq := st.rr_quantum_left - 1
              if st.sched.isRR && decide (rrq ≤ 0) then
                some { st with
                  rr_quantum_left := rrq
                  sched := st.sched.add p2
                  running := none }
              else
                some { st with rr_quantum_left := rrq }

/-- One iteration of the `while` loop of `Simulator.run`: admissions, lock
expiry, dispatch (recording `start_time` on first dispatch and resetting the
quantum), then the running-process body or an idle tick. -/
def Simulator.stepSim (rng : Nat → Nat) (st : Simulator) : Option Simulator :=
  let st := st.admitArrivals
  let st := { st with fs := st.fs.release_expired st.time }
  match st.running with
  | some pid => st.runBody rng pid
  | none =>
    let ts := st.sched.tick
    match ts.1 with
    | none =>
      some { st with sched := ts.2, time := st.time + 1, total_ticks := st.total_ticks + 1 }
    | some pid =>
      match alookup pid st.procs with
      | none => none
      | some p =>
        let p := if p.start_time = none then { p with start_time := some st.time } else p
        let st := { st.setProc p with
          sched := ts.2
          running := some pid
          rr_quantum_left := st.quantum }
        st.runBody rng pid

/-- The `while` condition of `Simulator.run`. -/
def Simulator.loopCond (max_ticks : Int) (st : Simulator) : Bool :=
  decide (st.time < max_ticks) &&
    (!st.pending.isEmpty || st.sched.hasReady || st.running.isSome)

/-- Up to `fuel` iterations of the `run` loop, stopping early when the loop
condition goes false; `none` if an iteration raises.  The Python loop is the
limit over all fuels (it iterates unboundedly even at a frozen clock). -/
def Simulator.runLoop (rng : Nat → Nat) (max_ticks : Int) :
    Nat → Simulator → Option Simulator
  | 0, st => some st
  | fuel + 1, st =>
    if Simulator.loopCond max_ticks st then
      match st.stepSim rng with
      | none => none
      | some st2 => Simulator.runLoop rng max_ticks fuel st2
    else some st

-- -------------------------
-- Metrics
-- -------------------------

/-- The metrics record returned by `Simulator.compute_metrics` (rationals
stand for Python's real-valued arithmetic). -/
structure Metrics where
  finished_count : Nat
  avg_waiting_time : ℚ
  avg_turnaround_time : ℚ
  cpu_utilization_percent : ℚ
  page_faults : List (Nat × Int)
  mem_frames : List (Nat × Nat × Nat)
  file_conflicts : Int
  time_elapsed : Int
  deriving DecidableEq, Repr

/-- The finished processes, resolved through the store. -/
def Simulator.finishedProcs (st : Simulator) : List Process :=
  st.finished.filterMap (fun pid => alookup pid st.procs)

/-- Turnaround of one process as computed by `compute_metrics`
(`p.finish_time - p.arrival if p.finish_time is not None else 0`). -/
def turnaroundOf (p : Process) : Int :=
  match p.finish_time with
  | some f => f - p.arrival
  | none => 0

/-- The clamped waiting time written back by `compute_metrics`
(`waiting if waiting >= 0 else 0`). -/
def clampedWaiting (p : Process) : Int :=
  let waiting := turnaroundOf p - p.total_cpu
  if 0 ≤ waiting then waiting else 0

/-- `Simulator.compute_metrics`: per-process turnaround and clamped waiting
(written back into the store), their averages (0 when nothing finished), and
CPU utilization over `max(1, total_ticks)`. -/
def Simulator.compute_metrics (st : Simulator) : Metrics × Simulator :=
  let fin := st.finishedProcs
  let n := fin.length
  let upd := fin.map (fun p => { p with waiting_time := clampedWaiting p })
  let total_wait : Int := (upd.map (fun p => p.waiting_time)).sum
  let total_turnaround : Int := (fin.map turnaroundOf).sum
  let avg_wait : ℚ := if n = 0 then 0 else (total_wait : ℚ) / (n : ℚ)
  let avg_turnaround : ℚ := if n = 0 then 0 else (total_turnaround : ℚ) / (n : ℚ)
  let cpu_util : ℚ := ((st.cpu_busy_ticks : ℚ) / ((max 1 st.total_ticks : Int) : ℚ)) * 100
  let st2 := upd.foldl (fun s p => s.setProc p) st
  ({ finished_count := n
     avg_waiting_time := avg_wait
     avg_turnaround_time := avg_turnaround
     cpu_utilization_percent := cpu_util
     page_faults := st.mem.page_faults
     mem_frames := st.mem.frames
     file_conflicts := st.fs.conflicts
     time_elapsed := st.time }, st2)

-- -------------------------
-- Association-list lemmas
-- -------------------------

theorem alookup_eq_none_iff [DecidableEq κ] (k : κ) (l : List (κ × β)) :
    alookup k l = none ↔ k ∉ l.map Prod.fst := by
  induction l with
  | nil => simp [alookup]
  | cons x xs ih =>
    obtain ⟨a, b⟩ := x
    by_cases h : a = k
    · subst h; simp [alookup]
    · simp [alookup, h, ih, Ne.symm h]

theorem alookup_some_mem [DecidableEq κ] {k : κ} {v : β} {l : List (κ × β)}
    (h : alookup k l = some v) : (k, v) ∈ l := by
  induction l with
  | nil => simp [alookup] at h
  | cons x xs ih =>
    obtain ⟨a, b⟩ := x
    by_cases hak : a = k
    · subst hak
      simp [alookup] at h
      subst h
      exact List.mem_cons_self _ _
    · simp only [alookup, if_neg hak] at h
      exact List.mem_cons_of_mem _ (ih h)

theorem alookup_isSome_iff [DecidableEq κ] (k : κ) (l : List (κ × β)) :
    (alookup k l).isSome ↔ k ∈ l.map Prod.fst := by
  cases h : alookup k l with
  | none => simp [(alookup_eq_none_iff k l).mp h]
  | some v =>
    simp only [Option.isSome_some, true_iff]
    exact List.mem_map.mpr ⟨(k, v), alookup_some_mem h, rfl⟩

theorem alookup_aset_self [DecidableEq κ] (k : κ) (v : β) (l : List (κ × β)) :
    alookup k (aset k v l) = some v := by
  induction l with
  | nil => simp [aset, alookup]
  | cons x xs ih =>
    obtain ⟨a, b⟩ := x
    by_cases h : a = k
    · subst h; simp [aset, alookup]
    · simp [aset, alookup, h, ih]

theorem alookup_aset_ne [DecidableEq κ] {k k2 : κ} (v : β) (l : List (κ × β))
    (h : k ≠ k2) : alookup k (aset k2 v l) = alookup k l := by
  induction l with
  | nil => simp [aset, alookup, Ne.symm h]
  | cons x xs ih =>
    obtain ⟨a, b⟩ := x
    by_cases hak : a = k2
    · subst hak
      simp [aset, alookup, Ne.symm h]
    · simp [aset, alookup, hak, ih]

theorem aset_map_fst_of_mem [DecidableEq κ] {k : κ} (v : β) {l : List (κ × β)}
    (h : k ∈ l.map Prod.fst) : (aset k v l).map Prod.fst = l.map Prod.fst := by
  induction l with
  | nil => simp at h
  | cons x xs ih =>
    obtain ⟨a, b⟩ := x
    by_cases hak : a = k
    · subst hak; simp [aset]
    · simp only [List.map_cons, List.mem_cons] at h
      rcases h with h | h

      · exact absurd h.symm hak
      · simp [aset, hak, ih h]

theorem aset_map_fst_of_not_mem [DecidableEq κ] {k : κ} (v : β) {l : List (κ × β)}
    (h : k ∉ l.map Prod.fst) : (aset k v l).map Prod.fst = l.map Prod.fst ++ [k] := by
  induction l with
  | nil => simp [aset]
  | cons x xs ih =>
    obtain ⟨a, b⟩ := x
    simp only [List.map_cons, List.mem_cons] at h
    push_neg at h
    simp [aset, Ne.symm h.1, ih h.2]

theorem aerase_map_fst [DecidableEq κ] (k : κ) (l : List (κ × β)) :
    (aerase k l).map Prod.fst = eraseFirst k (l.map Prod.fst) := by
  induction l with
  | nil => simp [aerase, eraseFirst]
  | cons x xs ih =>
    obtain ⟨a, b⟩ := x
    by_cases h : a = k <;> simp [aerase, eraseFirst, h, ih]

theorem alookup_aerase_ne [DecidableEq κ] {k k2 : κ} (l : List (κ × β))
    (h : k ≠ k2) : alookup k (aerase k2 l) = alookup k l := by
  induction l with
  | nil => simp [aerase]
  | cons x xs ih =>
    obtain ⟨a, b⟩ := x
    by_cases hak : a = k2
    · subst hak
      simp [aerase, alookup, Ne.symm h]
    · simp [aerase, alookup, hak, ih]

theorem eraseFirst_of_not_mem [DecidableEq α] {x : α} {l : List α} (h : x ∉ l) :
    eraseFirst x l = l := by
  induction l with
  | nil => rfl
  | cons y ys ih =>
    simp only [List.mem_cons] at h
    push_neg at h
    simp [eraseFirst, Ne.symm h.1, ih h.2]

theorem mem_eraseFirst_sub [DecidableEq α] {x y : α} {l : List α}
    (h : y ∈ eraseFirst x l) : y ∈ l := by
  induction l with
  | nil => simp [eraseFirst] at h
  | cons z zs ih =>
    by_cases hz : z = x
    · subst hz; simp only [eraseFirst, if_pos rfl] at h
      exact List.mem_cons_of_mem _ h
    · simp only [eraseFirst, if_neg hz, List.mem_cons] at h
      rcases h with h | h
      · exact h ▸ List.mem_cons_self _ _
      · exact List.mem_cons_of_mem _ (ih h)

theorem eraseFirst_nodup [DecidableEq α] {x : α} {l : List α} (h : l.Nodup) :
    (eraseFirst x l).Nodup := by
  induction l with
  | nil => simp [eraseFirst]
  | cons y ys ih =>
    simp only [List.nodup_cons] at h
    by_cases hy : y = x
    · simp [eraseFirst, hy, h.2]
    · simp only [eraseFirst, if_neg hy, List.nodup_cons]
      exact ⟨fun hc => h.1 (mem_eraseFirst_sub hc), ih h.2⟩

theorem not_mem_eraseFirst_of_nodup [DecidableEq α] {x : α} {l : List α}
    (h : l.Nodup) : x ∉ eraseFirst x l := by
  induction l with
  | nil => simp [eraseFirst]
  | cons y ys ih =>
    simp only [List.nodup_cons] at h
    by_cases hy : y = x
    · subst hy; simp [eraseFirst, h.1]
    · simp only [eraseFirst, if_neg hy, List.mem_cons]
      push_neg
      exact ⟨fun hc => hy hc.symm, ih h.2⟩

theorem length_eraseFirst_of_mem [DecidableEq α] {x : α} {l : List α} (h : x ∈ l) :
    (eraseFirst x l).length + 1 = l.length := by
  induction l with
  | nil => simp at h
  | cons y ys ih =>
    by_cases hy : y = x
    · simp [eraseFirst, hy]
    · simp only [List.mem_cons] at h
      rcases h with h | h
      · exact absurd h.symm hy
      · simp [eraseFirst, hy, ih h]

theorem alookup_aerase_self [DecidableEq κ] (k : κ) {l : List (κ × β)}
    (h : (l.map Prod.fst).Nodup) : alookup k (aerase k l) = none := by
  rw [alookup_eq_none_iff, aerase_map_fst]
  exact not_mem_eraseFirst_of_nodup h

-- -------------------------
-- minByVal lemmas (Python min with first-minimal tie-break)
-- -------------------------

theorem minByVal_eq_none_iff (l : List (α × Int)) : minByVal l = none ↔ l = [] := by
  cases l with
  | nil => simp [minByVal]
  | cons x xs =>
    simp only [minByVal]
    cases minByVal xs with
    | none => simp
    | some y =>
      by_cases h : y.2 < x.2 <;> simp [h]

theorem minByVal_mem {l : List (α × Int)} {p : α × Int} (h : minByVal l = some p) :
    p ∈ l := by
  induction l generalizing p with
  | nil => simp [minByVal] at h
  | cons x xs ih =>
    cases hm : minByVal xs with
    | none =>
      simp only [minByVal, hm, Option.some.injEq] at h
      exact h ▸ List.mem_cons_self _ _
    | some y =>
      simp only [minByVal, hm] at h
      by_cases hlt : y.2 < x.2
      · rw [if_pos hlt] at h
        simp only [Option.some.injEq] at h
        exact List.mem_cons_of_mem _ (h ▸ ih hm)
      · rw [if_neg hlt] at h
        simp only [Option.some.injEq] at h
        exact h ▸ List.mem_cons_self _ _

theorem minByVal_le {l : List (α × Int)} {p : α × Int} (h : minByVal l = some p) :
    ∀ q ∈ l, p.2 ≤ q.2 := by
  induction l generalizing p with
  | nil => simp [minByVal] at h
  | cons x xs ih =>
    intro q hq
    simp only [List.mem_cons] at hq
    cases hm : minByVal xs with
    | none =>
      simp only [minByVal, hm, Option.some.injEq] at h
      have hxs : xs = [] := (minByVal_eq_none_iff xs).mp hm
      rcases hq with hq | hq
      · exact h ▸ hq ▸ le_refl _
      · rw [hxs] at hq; simp at hq
    | some y =>
      simp only [minByVal, hm] at h
      by_cases hlt : y.2 < x.2
      · rw [if_pos hlt] at h
        simp only [Option.some.injEq] at h
        subst h
        rcases hq with hq | hq
        · exact hq ▸ le_of_lt hlt
        · exact ih hm q hq
      · rw [if_neg hlt] at h
        simp only [Option.some.injEq] at h
        subst h
        rcases hq with hq | hq
        · exact hq ▸ le_refl _
        · exact le_trans (not_lt.mp hlt) (ih hm q hq)

theorem minByVal_first {l : List (α × Int)} {p : α × Int} (h : minByVal l = some p) :
    ∃ l1 l2, l = l1 ++ p :: l2 ∧ ∀ q ∈ l1, p.2 < q.2 := by
  induction l generalizing p with
  | nil => simp [minByVal] at h
  | cons x xs ih =>
    cases hm : minByVal xs with
    | none =>
      simp only [minByVal, hm, Option.some.injEq] at h
      exact ⟨[], xs, by simp [h], by simp⟩
    | some y =>
      simp only [minByVal, hm] at h
      by_cases hlt : y.2 < x.2
      · rw [if_pos hlt] at h
        simp only [Option.some.injEq] at h
        subst h
        obtain ⟨l1, l2, heq, hgt⟩ := ih hm
        refine ⟨x :: l1, l2, by simp [heq], ?_⟩
        intro q hq
        simp only [List.mem_cons] at hq
        rcases hq with hq | hq
        · exact hq ▸ hlt
        · exact hgt q hq
      · rw [if_neg hlt] at h
        simp only [Option.some.injEq] at h
        subst h
        exact ⟨[], xs, rfl, by simp⟩

-- -------------------------
-- Memory Manager invariant
-- -------------------------

theorem length_aset_not_mem [DecidableEq κ] {k : κ} (v : β) {l : List (κ × β)}
    (h : k ∉ l.map Prod.fst) : (aset k v l).length = l.length + 1 := by
  have h1 : ((aset k v l).map Prod.fst).length = (l.map Prod.fst ++ [k]).length := by
    rw [aset_map_fst_of_not_mem v h]
  simpa using h1

theorem length_aset_mem [DecidableEq κ] {k : κ} (v : β) {l : List (κ × β)}
    (h : k ∈ l.map Prod.fst) : (aset k v l).length = l.length := by
  have h1 : ((aset k v l).map Prod.fst).length = (l.map Prod.fst).length := by
    rw [aset_map_fst_of_mem v h]
  simpa using h1

theorem length_aerase_mem [DecidableEq κ] {k : κ} {l : List (κ × β)}
    (h : k ∈ l.map Prod.fst) : (aerase k l).length + 1 = l.length := by
  have h1 : ((aerase k l).map Prod.fst).length + 1 = (l.map Prod.fst).length := by
    rw [aerase_map_fst]
    exact length_eraseFirst_of_mem h
  simpa using h1

theorem length_replaceFrame (vf pid page : Nat) (l : List (Nat × Nat × Nat)) :
    (replaceFrame vf pid page l).length = l.length := by
  induction l with
  | nil => rfl
  | cons x xs ih =>
    obtain ⟨fid, p, v⟩ := x
    by_cases h : fid = vf <;> simp [replaceFrame, h, ih]

theorem nodup_append_singleton {l : List α} {x : α} (h1 : l.Nodup) (h2 : x ∉ l) :
    (l ++ [x]).Nodup := by
  rw [List.nodup_append]
  refine ⟨h1, List.nodup_singleton x, ?_⟩
  intro a ha hax
  simp only [List.mem_singleton] at hax
  exact h2 (hax ▸ ha)

/-- Structural invariant of reachable `MemoryManager` states: the frame list
and the frame map have the same size, bounded by the capacity; the FIFO queue
and the `last_used` keys list the resident keys in load order, without
duplicates. -/
def MemInv (m : MemoryManager) : Prop :=
  m.frames.length = m.frame_map.length ∧
  m.frame_map.length ≤ m.num_frames ∧
  m.fifo_queue = m.frame_map.map Prod.fst ∧
  m.last_used.map Prod.fst = m.frame_map.map Prod.fst ∧
  (m.frame_map.map Prod.fst).Nodup

theorem memInv_mk (n : Nat) (repl : String) : MemInv (mkMemoryManager n repl) := by
  refine ⟨rfl, ?_, rfl, rfl, List.nodup_nil⟩
  simp [mkMemoryManager]

theorem load_page_inv {m : MemoryManager} (pid page : Nat) (tick : Int)
    (hinv : MemInv m) (hpos : 0 < m.num_frames)
    (hmiss : alookup (pid, page) m.frame_map = none) :
    ∃ m2, m.load_page pid page tick = some m2 ∧ MemInv m2 ∧
      m2.num_frames = m.num_frames ∧ m2.replacement = m.replacement := by
  obtain ⟨hlen, hle, hfifo, hlu, hnd⟩ := hinv
  have hkey : (pid, page) ∉ m.frame_map.map Prod.fst :=
    (alookup_eq_none_iff _ _).mp hmiss
  have hkeylu : (pid, page) ∉ m.last_used.map Prod.fst := by rw [hlu]; exact hkey
  by_cases hfree : m.frames.length < m.num_frames
  · have hload : m.load_page pid page tick = some { m with
        frames := m.frames ++ [(m.frames.length, pid, page)]
        frame_map := aset (pid, page) m.frames.length m.frame_map
        fifo_queue := m.fifo_queue ++ [(pid, page)]
        last_used := aset (pid, page) tick m.last_used } := by
      simp only [MemoryManager.load_page, if_pos hfree]
    refine ⟨_, hload, ⟨?_, ?_, ?_, ?_, ?_⟩, rfl, rfl⟩
    · show (m.frames ++ [(m.frames.length, pid, page)]).length =
        (aset (pid, page) m.frames.length m.frame_map).length
      rw [length_aset_not_mem _ hkey]
      simp [hlen]
    · show (aset (pid, page) m.frames.length m.frame_map).length ≤ m.num_frames
      rw [length_aset_not_mem _ hkey]
      omega
    · show m.fifo_queue ++ [(pid, page)] =
        (aset (pid, page) m.frames.length m.frame_map).map Prod.fst
      rw [aset_map_fst_of_not_mem _ hkey, hfifo]
    · show (aset (pid, page) tick m.last_used).map Prod.fst =
        (aset (pid, page) m.frames.length m.frame_map).map Prod.fst
      rw [aset_map_fst_of_not_mem _ hkeylu, aset_map_fst_of_not_mem _ hkey, hlu]
    · show ((aset (pid, page) m.frames.length m.frame_map).map Prod.fst).Nodup
      rw [aset_map_fst_of_not_mem _ hkey]
      exact nodup_append_singleton hnd hkey
  · have hfm : m.frame_map ≠ [] := by
      intro hemp
      rw [hemp] at hlen
      simp only [List.length_nil] at hlen
      omega
    have hfmfst : m.frame_map.map Prod.fst ≠ [] := by
      intro hemp
      exact hfm (List.map_eq_nil_iff.mp hemp)
    have hvict : ∃ victim fq,
        (if m.replacement = "FIFO" then
          match m.fifo_queue with
          | [] => none
          | v :: rest => some (v, rest)
        else if m.replacement = "LRU" then
          match minByVal m.last_used with
          | none => none
          | some (v, _) => some (v, eraseFirst v m.fifo_queue)
        else
          match m.fifo_queue with
          | [] => none
          | v :: rest => some (v, rest)) = some (victim, fq) ∧
        victim ∈ m.frame_map.map Prod.fst ∧ fq = eraseFirst victim m.fifo_queue := by
      by_cases hF : m.replacement = "FIFO"
      · rw [if_pos hF]
        cases hq : m.fifo_queue with
        | nil => rw [hfifo] at hq; exact absurd hq hfmfst
        | cons v rest =>
          refine ⟨v, rest, rfl, ?_, ?_⟩
          · have hv : v ∈ m.fifo_queue := by
              rw [hq]; exact List.mem_cons_self _ _
            rw [hfifo] at hv
            exact hv
          · simp [eraseFirst]
      · rw [if_neg hF]
        by_cases hL : m.replacement = "LRU"
        · rw [if_pos hL]
          cases hmv : minByVal m.last_used with
          | none =>
            have hemp : m.last_used = [] := (minByVal_eq_none_iff _).mp hmv
            rw [hemp] at hlu
            exact absurd hlu.symm hfmfst
          | some vt =>
            obtain ⟨v, t⟩ := vt
            refine ⟨v, _, rfl, ?_, rfl⟩
            have hvmem : (v, t) ∈ m.last_used := minByVal_mem hmv
            rw [← hlu]
            exact List.mem_map.mpr ⟨(v, t), hvmem, rfl⟩
        · rw [if_neg hL]
          cases hq : m.fifo_queue with
          | nil => rw [hfifo] at hq; exact absurd hq hfmfst
          | cons v rest =>
            refine ⟨v, rest, rfl, ?_, ?_⟩
            · have hv : v ∈ m.fifo_queue := by
                rw [hq]; exact List.mem_cons_self _ _
              rw [hfifo] at hv
              exact hv
            · simp [eraseFirst]
    obtain ⟨victim, fq, hvfq, hvmem, hfq⟩ := hvict
    have hlook : (alookup victim m.frame_map).isSome :=
      (alookup_isSome_iff _ _).mpr hvmem
    obtain ⟨vf, hvf⟩ := Option.isSome_iff_exists.mp hlook
    have hkeyvict : (pid, page) ≠ victim := by
      intro hh
      exact hkey (hh ▸ hvmem)
    have hkey2 : (pid, page) ∉ (aerase victim m.frame_map).map Prod.fst := by
      rw [aerase_map_fst]
      intro hc
      exact hkey (mem_eraseFirst_sub hc)
    have hkey2lu : (pid, page) ∉ (aerase victim m.last_used).map Prod.fst := by
      rw [aerase_map_fst]
      intro hc
      exact hkeylu (mem_eraseFirst_sub hc)
    have hvmemlu : victim ∈ m.last_used.map Prod.fst := by rw [hlu]; exact hvmem
    have hload : m.load_page pid page tick = some { m with
        frames := replaceFrame vf pid page m.frames
        frame_map := aset (pid, page) vf (aerase victim m.frame_map)
        fifo_queue := fq ++ [(pid, page)]
        last_used := aset (pid, page) tick (aerase victim m.last_used) } := by
      simp only [MemoryManager.load_page, if_neg hfree, hvfq, hvf]
    refine ⟨_, hload, ⟨?_, ?_, ?_, ?_, ?_⟩, rfl, rfl⟩
    · show (replaceFrame vf pid page m.frames).length =
        (aset (pid, page) vf (aerase victim m.frame_map)).length
      rw [length_replaceFrame, length_aset_not_mem _ hkey2]
      have := length_aerase_mem hvmem
      omega
    · show (aset (pid, page) vf (aerase victim m.frame_map)).length ≤ m.num_frames
      rw [length_aset_not_mem _ hkey2]
      have := length_aerase_mem hvmem
      omega
    · show fq ++ [(pid, page)] =
        (aset (pid, page) vf (aerase victim m.frame_map)).map Prod.fst
      rw [aset_map_fst_of_not_mem _ hkey2, aerase_map_fst, hfq, hfifo]
    · show (aset (pid, page) tick (aerase victim m.last_used)).map Prod.fst =
        (aset (pid, page) vf (aerase victim m.frame_map)).map Prod.fst
      rw [aset_map_fst_of_not_mem _ hkey2lu, aset_map_fst_of_not_mem _ hkey2,
        aerase_map_fst, aerase_map_fst, hlu]
    · show ((aset (pid, page) vf (aerase victim m.frame_map)).map Prod.fst).Nodup
      rw [aset_map_fst_of_not_mem _ hkey2, aerase_map_fst]
      exact nodup_append_singleton (eraseFirst_nodup hnd)
        (fun hc => hkey (mem_eraseFirst_sub hc))

theorem access_page_inv {m : MemoryManager} (pid page : Nat) (tick : Int)
    (hinv : MemInv m) (hpos : 0 < m.num_frames) :
    ∃ b m2, m.access_page pid page tick = some (b, m2) ∧ MemInv m2 ∧
      m2.num_frames = m.num_frames ∧ m2.replacement = m.replacement := by
  obtain ⟨hlen, hle, hfifo, hlu, hnd⟩ := hinv
  cases hl : alookup (pid, page) m.frame_map with
  | some vf =>
    have hmem : (pid, page) ∈ m.last_used.map Prod.fst := by
      rw [hlu]
      exact (alookup_isSome_iff _ _).mp (by rw [hl]; rfl)
    refine ⟨true, { m with time := tick, last_used := aset (pid, page) tick m.last_used },
      ?_, ⟨hlen, hle, hfifo, ?_, hnd⟩, rfl, rfl⟩
    · simp only [MemoryManager.access_page, hl]
    · show (aset (pid, page) tick m.last_used).map Prod.fst = m.frame_map.map Prod.fst
      rw [aset_map_fst_of_mem _ hmem, hlu]
  | none =>
    have hinv2 : MemInv { m with
        time := tick
        page_faults := aset pid ((alookup pid m.page_faults).getD 0 + 1) m.page_faults } :=
      ⟨hlen, hle, hfifo, hlu, hnd⟩
    obtain ⟨m2, hload, hinv3, hnf, hrepl⟩ :=
      load_page_inv pid page tick hinv2 hpos hl
    refine ⟨false, m2, ?_, hinv3, hnf, hrepl⟩
    simp only [MemoryManager.access_page, hl, hload, Option.map_some']

theorem applyAccesses_inv : ∀ (ops : List (Nat × Nat × Int)) (m m2 : MemoryManager),
    MemInv m → 0 < m.num_frames → applyAccesses ops m = some m2 →
    MemInv m2 ∧ m2.num_frames = m.num_frames := by
  intro ops
  induction ops with
  | nil =>
    intro m m2 hinv hpos happ
    simp only [applyAccesses, Option.some.injEq] at happ
    exact happ ▸ ⟨hinv, rfl⟩
  | cons op rest ih =>
    intro m m2 hinv hpos happ
    obtain ⟨pid, page, tick⟩ := op
    obtain ⟨b, m1, hacc, hinv1, hnf, _⟩ := access_page_inv pid page tick hinv hpos
    rw [applyAccesses, hacc] at happ
    have := ih m1 m2 hinv1 (hnf ▸ hpos) happ
    exact ⟨this.1, hnf ▸ this.2⟩

theorem load_page_lru_evicts {m : MemoryManager} (pid page : Nat) (tick : Int)
    (hinv : MemInv m) (hlru : m.replacement = "LRU")
    (hfull : ¬ m.frames.length < m.num_frames) (hpos : 0 < m.num_frames)
    (hmiss : alookup (pid, page) m.frame_map = none) :
    ∃ v t m2, minByVal m.last_used = some (v, t) ∧
      m.load_page pid page tick = some m2 ∧
      (v, t) ∈ m.last_used ∧ (∀ q ∈ m.last_used, t ≤ q.2) ∧
      (∃ l1 l2, m.last_used = l1 ++ (v, t) :: l2 ∧ ∀ q ∈ l1, t < q.2) ∧
      m.last_used.map Prod.fst = m.fifo_queue ∧
      alookup v m2.frame_map = none ∧
      (alookup (pid, page) m2.frame_map).isSome := by
  obtain ⟨hlen, hle, hfifo, hlu, hnd⟩ := hinv
  have hkey : (pid, page) ∉ m.frame_map.map Prod.fst :=
    (alookup_eq_none_iff _ _).mp hmiss
  have hfm : m.frame_map ≠ [] := by
    intro hemp
    rw [hemp] at hlen
    simp only [List.length_nil] at hlen
    omega
  have hlune : m.last_used ≠ [] := by
    intro hemp
    rw [hemp] at hlu
    exact hfm (List.map_eq_nil_iff.mp hlu.symm)
  cases hmv : minByVal m.last_used with
  | none => exact absurd ((minByVal_eq_none_iff _).mp hmv) hlune
  | some vt =>
    obtain ⟨v, t⟩ := vt
    have hvtmem : (v, t) ∈ m.last_used := minByVal_mem hmv
    have hvmem : v ∈ m.frame_map.map Prod.fst := by
      rw [← hlu]
      exact List.mem_map.mpr ⟨(v, t), hvtmem, rfl⟩
    have hlook : (alookup v m.frame_map).isSome := (alookup_isSome_iff _ _).mpr hvmem
    obtain ⟨vf, hvf⟩ := Option.isSome_iff_exists.mp hlook
    have hF : ¬ m.replacement = "FIFO" := by rw [hlru]; decide
    have hload : m.load_page pid page tick = some { m with
        frames := replaceFrame vf pid page m.frames
        frame_map := aset (pid, page) vf (aerase v m.frame_map)
        fifo_queue := eraseFirst v m.fifo_queue ++ [(pid, page)]
        last_used := aset (pid, page) tick (aerase v m.last_used) } := by
      simp only [MemoryManager.load_page, if_neg hfull, if_neg hF, if_pos hlru, hmv, hvf]
    have hvkey : v ≠ (pid, page) := by
      intro hh
      exact hkey (hh ▸ hvmem)
    have hev : alookup v (aset (pid, page) vf (aerase v m.frame_map)) = none := by
      rw [alookup_aset_ne _ _ hvkey]
      exact alookup_aerase_self v hnd
    have hnew : (alookup (pid, page) (aset (pid, page) vf (aerase v m.frame_map))).isSome := by
      rw [alookup_aset_self]
      rfl
    exact ⟨v, t, _, rfl, hload, hvtmem, minByVal_le hmv, minByVal_first hmv,
      by rw [hlu, hfifo], hev, hnew⟩

/-- C1: for every reachable MemoryManager state with positive frame capacity
(any finite sequence of `access_page` calls after construction), the number of
resident entries — the size of the frame map — never exceeds `num_frames`. -/
theorem resident_count_never_exceeds_num_frames
    (ops : List (Nat × Nat × Int)) (n : Nat) (repl : String) (m : MemoryManager)
    (hpos : 0 < n) (hrun : applyAccesses ops (mkMemoryManager n repl) = some m) :
    m.frame_map.length ≤ n := by
  have h := applyAccesses_inv ops (mkMemoryManager n repl) m (memInv_mk n repl) hpos hrun
  have hb := h.1.2.1
  have hn : m.num_frames = n := h.2
  rw [hn] at hb
  exact hb

theorem resident_count_never_exceeds_num_frames_witness :
    ((applyAccesses [(1, 0, 0), (1, 1, 1), (2, 0, 2), (2, 1, 3), (1, 0, 4)]
      (mkMemoryManager 2 "FIFO")).getD (mkMemoryManager 2 "FIFO")).frame_map.length ≤ 2 :=
  resident_count_never_exceeds_num_frames
    [(1, 0, 0), (1, 1, 1), (2, 0, 2), (2, 1, 3), (1, 0, 4)] 2 "FIFO" _
    (by decide) (by decide)

/-- C2: under the LRU policy, a miss with all frames occupied evicts the
resident key with the smallest last-access timestamp, ties broken by earliest
insertion (load) order — the `last_used` scan order coincides with the FIFO
load order — and in particular, with 2 frames and accesses 0, 1, 0, 2 on
successive ticks, loading page 2 evicts page 1 and keeps pages 0 and 2. -/
theorem lru_evicts_least_recently_used :
    (∀ (m : MemoryManager) (pid page : Nat) (tick : Int),
      MemInv m → m.replacement = "LRU" → ¬ m.frames.length < m.num_frames →
      0 < m.num_frames → alookup (pid, page) m.frame_map = none →
      ∃ v t m2, minByVal m.last_used = some (v, t) ∧
        m.load_page pid page tick = some m2 ∧
        (v, t) ∈ m.last_used ∧ (∀ q ∈ m.last_used, t ≤ q.2) ∧
        (∃ l1 l2, m.last_used = l1 ++ (v, t) :: l2 ∧ ∀ q ∈ l1, t < q.2) ∧
        m.last_used.map Prod.fst = m.fifo_queue ∧
        alookup v m2.frame_map = none ∧
        (alookup (pid, page) m2.frame_map).isSome) ∧
    (∃ m, applyAccesses [(1, 0, 0), (1, 1, 1), (1, 0, 2), (1, 2, 3)]
        (mkMemoryManager 2 "LRU") = some m ∧
      alookup (1, 1) m.frame_map = none ∧
      (alookup (1, 0) m.frame_map).isSome ∧
      (alookup (1, 2) m.frame_map).isSome) := by
  constructor
  · intro m pid page tick hinv hlru hfull hpos hmiss
    exact load_page_lru_evicts pid page tick hinv hlru hfull hpos hmiss
  · exact ⟨(applyAccesses [(1, 0, 0), (1, 1, 1), (1, 0, 2), (1, 2, 3)]
        (mkMemoryManager 2 "LRU")).getD (mkMemoryManager 2 "LRU"),
      by decide, by decide, by decide, by decide⟩

theorem lru_evicts_least_recently_used_witness :
    ∃ v t m2,
      minByVal ((applyAccesses [(1, 0, 0), (1, 1, 1)] (mkMemoryManager 2 "LRU")).getD
        (mkMemoryManager 2 "LRU")).last_used = some (v, t) ∧
      ((applyAccesses [(1, 0, 0), (1, 1, 1)] (mkMemoryManager 2 "LRU")).getD
        (mkMemoryManager 2 "LRU")).load_page 1 2 3 = some m2 ∧
      (v, t) ∈ ((applyAccesses [(1, 0, 0), (1, 1, 1)] (mkMemoryManager 2 "LRU")).getD
        (mkMemoryManager 2 "LRU")).last_used ∧
      (∀ q ∈ ((applyAccesses [(1, 0, 0), (1, 1, 1)] (mkMemoryManager 2 "LRU")).getD
        (mkMemoryManager 2 "LRU")).last_used, t ≤ q.2) ∧
      (∃ l1 l2, ((applyAccesses [(1, 0, 0), (1, 1, 1)] (mkMemoryManager 2 "LRU")).getD
        (mkMemoryManager 2 "LRU")).last_used = l1 ++ (v, t) :: l2 ∧ ∀ q ∈ l1, t < q.2) ∧
      ((applyAccesses [(1, 0, 0), (1, 1, 1)] (mkMemoryManager 2 "LRU")).getD
        (mkMemoryManager 2 "LRU")).last_used.map Prod.fst =
        ((applyAccesses [(1, 0, 0), (1, 1, 1)] (mkMemoryManager 2 "LRU")).getD
        (mkMemoryManager 2 "LRU")).fifo_queue ∧
      alookup v m2.frame_map = none ∧
      (alookup (1, 2) m2.frame_map).isSome :=
  lru_evicts_least_recently_used.1
    ((applyAccesses [(1, 0, 0), (1, 1, 1)] (mkMemoryManager 2 "LRU")).getD
      (mkMemoryManager 2 "LRU")) 1 2 3
    ⟨by decide, by decide, by decide, by decide, by decide⟩
    (by decide) (by decide) (by decide) (by decide)

-- -------------------------
-- File simulator: request (C3)
-- -------------------------

/-- C3: `request` on an unlocked file grants immediately — holder recorded
with release tick `tick + duration`, a "granted" log entry appended, conflict
counter and all wait queues unchanged — and on a locked file queues the
request — `(pid, op, duration)` appended to that file's queue, conflict
counter incremented by exactly one, a "queued" log entry appended, lock table
unchanged. -/
theorem request_grant_or_queue (fs : FileSimulator) (pid : Nat)
    (filename : String) (op : String) (tick duration : Int) :
    (alookup filename fs.locks = none →
      (fs.request pid filename op tick duration).1 = (true, some (tick + duration)) ∧
      alookup filename (fs.request pid filename op tick duration).2.locks
        = some (pid, tick + duration) ∧
      (∀ g, g ≠ filename → alookup g (fs.request pid filename op tick duration).2.locks
        = alookup g fs.locks) ∧
      (fs.request pid filename op tick duration).2.waiting = fs.waiting ∧
      (fs.request pid filename op tick duration).2.conflicts = fs.conflicts ∧
      (fs.request pid filename op tick duration).2.log
        = fs.log ++ [(tick, pid, filename, op, "granted")]) ∧
    ((alookup filename fs.locks).isSome →
      (fs.request pid filename op tick duration).1 = (false, none) ∧
      (fs.request pid filename op tick duration).2.locks = fs.locks ∧
      (fs.request pid filename op tick duration).2.getWaiting filename
        = fs.getWaiting filename ++ [(pid, op, duration)] ∧
      (∀ g, g ≠ filename → (fs.request pid filename op tick duration).2.getWaiting g
        = fs.getWaiting g) ∧
      (fs.request pid filename op tick duration).2.conflicts = fs.conflicts + 1 ∧
      (fs.request pid filename op tick duration).2.log
        = fs.log ++ [(tick, pid, filename, op, "queued")]) := by
  constructor
  · intro h
    simp only [FileSimulator.request, h]
    refine ⟨by trivial, ?_, ?_, by trivial, by trivial, by trivial⟩
    · exact alookup_aset_self _ _ _
    · intro g hg
      exact alookup_aset_ne _ _ hg
  · intro h
    obtain ⟨x, hx⟩ := Option.isSome_iff_exists.mp h
    simp only [FileSimulator.request, hx]
    refine ⟨by trivial, by trivial, ?_, ?_, by trivial, by trivial⟩
    · show (alookup filename (aset filename
        (fs.getWaiting filename ++ [(pid, op, duration)]) fs.waiting)).getD []
        = fs.getWaiting filename ++ [(pid, op, duration)]
      rw [alookup_aset_self]
      rfl
    · intro g hg
      show (alookup g (aset filename
        (fs.getWaiting filename ++ [(pid, op, duration)]) fs.waiting)).getD []
        = fs.getWaiting g
      rw [alookup_aset_ne _ _ hg]
      rfl

theorem request_grant_or_queue_witness :
    (mkFileSimulator.request 2 "fileA" "w" 0 1).1 = (true, some 1) ∧
    ((mkFileSimulator.request 2 "fileA" "w" 0 1).2.request 3 "fileA" "r" 0 5).2.conflicts
      = (mkFileSimulator.request 2 "fileA" "w" 0 1).2.conflicts + 1 :=
  ⟨((request_grant_or_queue mkFileSimulator 2 "fileA" "w" 0 1).1 (by decide)).1,
   ((request_grant_or_queue (mkFileSimulator.request 2 "fileA" "w" 0 1).2
      3 "fileA" "r" 0 5).2 (by decide)).2.2.2.2.1⟩

-- -------------------------
-- File simulator: release_expired (C4)
-- -------------------------

theorem nodup_aset_fst [DecidableEq κ] {k : κ} (v : β) {l : List (κ × β)}
    (h : (l.map Prod.fst).Nodup) : ((aset k v l).map Prod.fst).Nodup := by
  by_cases hm : k ∈ l.map Prod.fst
  · rw [aset_map_fst_of_mem _ hm]
    exact h
  · rw [aset_map_fst_of_not_mem _ hm]
    exact nodup_append_singleton h hm

theorem nodup_aerase_fst [DecidableEq κ] (k : κ) {l : List (κ × β)}
    (h : (l.map Prod.fst).Nodup) : ((aerase k l).map Prod.fst).Nodup := by
  rw [aerase_map_fst]
  exact eraseFirst_nodup h

theorem mem_alookup_of_nodup [DecidableEq κ] {k : κ} {v : β} {l : List (κ × β)}
    (hnd : (l.map Prod.fst).Nodup) (hm : (k, v) ∈ l) : alookup k l = some v := by
  induction l with
  | nil => simp at hm
  | cons x xs ih =>
    obtain ⟨a, b⟩ := x
    simp only [List.map_cons, List.nodup_cons] at hnd
    rcases List.mem_cons.mp hm with hh | hh
    · obtain ⟨h1, h2⟩ := Prod.mk.injEq .. ▸ hh
      simp [alookup, h1.symm, h2]
    · by_cases hak : a = k
      · subst hak
        exact absurd (List.mem_map.mpr ⟨(a, v), hh, rfl⟩) hnd.1
      · simp [alookup, hak, ih hnd.2 hh]

/-- Case analysis of `releaseOne`: either the wait queue of the file is empty
(the lock is just dropped) or the head waiter is promoted to a fresh lock. -/
theorem releaseOne_cases (tick : Int) (fs : FileSimulator) (g : String) :
    (fs.getWaiting g = [] ∧ releaseOne tick fs g =
      { fs with locks := aerase g fs.locks, waiting := aset g [] fs.waiting }) ∨
    (∃ p o d rest, fs.getWaiting g = (p, o, d) :: rest ∧ releaseOne tick fs g =
      { fs with
        locks := aset g (p, tick + d) (aerase g fs.locks)
        waiting := aset g rest fs.waiting
        log := fs.log ++ [(tick, p, g, o, "granted_from_queue")] }) := by
  cases hw : (alookup g fs.waiting).getD [] with
  | nil =>
    left
    exact ⟨hw, by simp only [releaseOne, hw]⟩
  | cons head rest =>
    obtain ⟨p, o, d⟩ := head
    right
    exact ⟨p, o, d, rest, hw, by simp only [releaseOne, hw]⟩

/-- Effect of `releaseOne` on a different file: its lock entry, wait queue,
log membership, and key-nodup are all preserved. -/
theorem releaseOne_other {tick : Int} {fs : FileSimulator} {g fname : String}
    (h : fname ≠ g) :
    alookup fname (releaseOne tick fs g).locks = alookup fname fs.locks ∧
    (releaseOne tick fs g).getWaiting fname = fs.getWaiting fname ∧
    (∀ e, e ∈ fs.log → e ∈ (releaseOne tick fs g).log) ∧
    ((fs.locks.map Prod.fst).Nodup → ((releaseOne tick fs g).locks.map Prod.fst).Nodup) := by
  rcases releaseOne_cases tick fs g with ⟨hw, heq⟩ | ⟨p, o, d, rest, hw, heq⟩ <;> rw [heq]
  · refine ⟨alookup_aerase_ne _ h, ?_, fun e he => he, fun hnd => nodup_aerase_fst g hnd⟩
    show (alookup fname (aset g [] fs.waiting)).getD [] = fs.getWaiting fname
    rw [alookup_aset_ne _ _ h]
    rfl
  · refine ⟨?_, ?_, ?_, ?_⟩
    · rw [alookup_aset_ne _ _ h, alookup_aerase_ne _ h]
    · show (alookup fname (aset g rest fs.waiting)).getD [] = fs.getWaiting fname
      rw [alookup_aset_ne _ _ h]
      rfl
    · intro e he
      exact List.mem_append_left _ he
    · intro hnd
      exact nodup_aset_fst _ (nodup_aerase_fst g hnd)

theorem foldl_releaseOne_not_mem (tick : Int) :
    ∀ (L : List String) (fs : FileSimulator) (fname : String), fname ∉ L →
    alookup fname (L.foldl (releaseOne tick) fs).locks = alookup fname fs.locks ∧
    (L.foldl (releaseOne tick) fs).getWaiting fname = fs.getWaiting fname := by
  intro L
  induction L with
  | nil => exact fun fs fname _ => ⟨rfl, rfl⟩
  | cons g L ih =>
    intro fs fname h
    simp only [List.mem_cons] at h
    push_neg at h
    obtain ⟨h1, h2, _, _⟩ := releaseOne_other h.1
    have hr := ih (releaseOne tick fs g) fname h.2
    exact ⟨hr.1.trans h1, hr.2.trans h2⟩

theorem foldl_releaseOne_log_mono (tick : Int) :
    ∀ (L : List String) (fs : FileSimulator) (e : Int × Nat × String × String × String),
    e ∈ fs.log → e ∈ (L.foldl (releaseOne tick) fs).log := by
  intro L
  induction L with
  | nil => exact fun fs e he => he
  | cons g L ih =>
    intro fs e he
    refine ih (releaseOne tick fs g) e ?_
    rcases releaseOne_cases tick fs g with ⟨_, heq⟩ | ⟨p, o, d, rest, _, heq⟩ <;> rw [heq]
    · exact he
    · exact List.mem_append_left _ he

theorem foldl_releaseOne_nodup (tick : Int) :
    ∀ (L : List String) (fs : FileSimulator), (fs.locks.map Prod.fst).Nodup →
    ((L.foldl (releaseOne tick) fs).locks.map Prod.fst).Nodup := by
  intro L
  induction L with
  | nil => exact fun fs h => h
  | cons g L ih =>
    intro fs h
    refine ih (releaseOne tick fs g) ?_
    rcases releaseOne_cases tick fs g with ⟨_, heq⟩ | ⟨p, o, d, rest, _, heq⟩ <;> rw [heq]
    · exact nodup_aerase_fst g h
    · exact nodup_aset_fst _ (nodup_aerase_fst g h)

/-- C4: `release_expired tick` releases every lock whose release tick is
`<= tick`; a released file with a non-empty wait queue immediately grants its
head a fresh lock until `tick + duration`, logging "granted_from_queue";
locks with release tick `> tick`, and the queues of files not released, are
unchanged. -/
theorem release_expired_spec (fs : FileSimulator) (tick : Int) (fname : String)
    (hnd : (fs.locks.map Prod.fst).Nodup) :
    (∀ p r, alookup fname fs.locks = some (p, r) → r ≤ tick →
      (fs.getWaiting fname = [] →
        alookup fname (fs.release_expired tick).locks = none ∧
        (fs.release_expired tick).getWaiting fname = []) ∧
      (∀ p2 o d rest, fs.getWaiting fname = (p2, o, d) :: rest →
        alookup fname (fs.release_expired tick).locks = some (p2, tick + d) ∧
        (fs.release_expired tick).getWaiting fname = rest ∧
        (tick, p2, fname, o, "granted_from_queue") ∈ (fs.release_expired tick).log)) ∧
    (∀ p r, alookup fname fs.locks = some (p, r) → tick < r →
      alookup fname (fs.release_expired tick).locks = some (p, r) ∧
      (fs.release_expired tick).getWaiting fname = fs.getWaiting fname) ∧
    (alookup fname fs.locks = none →
      alookup fname (fs.release_expired tick).locks = none ∧
      (fs.release_expired tick).getWaiting fname = fs.getWaiting fname) := by
  have hre : fs.release_expired tick =
      ((fs.locks.filter (fun kv => kv.2.2 ≤ tick)).map Prod.fst).foldl
        (releaseOne tick) fs := rfl
  have hndL : ((fs.locks.filter (fun kv => kv.2.2 ≤ tick)).map Prod.fst).Nodup := by
    have hsub : (fs.locks.filter (fun kv => kv.2.2 ≤ tick)).Sublist fs.locks :=
      List.filter_sublist _
    exact List.Nodup.sublist (hsub.map Prod.fst) hnd
  have hmemL : ∀ p r, alookup fname fs.locks = some (p, r) → r ≤ tick →
      fname ∈ (fs.locks.filter (fun kv => kv.2.2 ≤ tick)).map Prod.fst := by
    intro p r hl hle
    refine List.mem_map.mpr ⟨(fname, (p, r)), ?_, rfl⟩
    rw [List.mem_filter]
    exact ⟨alookup_some_mem hl, by simpa using hle⟩
  have hnotmemL : ∀ p r, alookup fname fs.locks = some (p, r) → tick < r →
      fname ∉ (fs.locks.filter (fun kv => kv.2.2 ≤ tick)).map Prod.fst := by
    intro p r hl hgt hmem
    obtain ⟨⟨f2, p2, r2⟩, hmm, hfst⟩ := List.mem_map.mp hmem
    obtain ⟨hin, hpred⟩ := List.mem_filter.mp hmm
    cases hfst
    have hlk := mem_alookup_of_nodup hnd hin
    rw [hl] at hlk
    injection hlk with hpr
    injection hpr with hp2 hr2
    simp only [decide_eq_true_eq] at hpred
    omega
  have hnone : alookup fname fs.locks = none →
      fname ∉ (fs.locks.filter (fun kv => kv.2.2 ≤ tick)).map Prod.fst := by
    intro hl hmem
    obtain ⟨⟨f2, p2, r2⟩, hmm, hfst⟩ := List.mem_map.mp hmem
    obtain ⟨hin, _⟩ := List.mem_filter.mp hmm
    cases hfst
    have := mem_alookup_of_nodup hnd hin
    rw [hl] at this
    exact Option.noConfusion this
  refine ⟨?_, ?_, ?_⟩
  · intro p r hl hle
    have hmem := hmemL p r hl hle
    obtain ⟨L1, L2, hsplit⟩ := List.append_of_mem hmem
    rw [hsplit] at hndL hre
    have hnm : fname ∉ L1 ∧ fname ∉ L2 := by
      rw [List.nodup_append] at hndL
      obtain ⟨_, hcons, hdisj⟩ := hndL
      exact ⟨fun hc => hdisj hc (List.mem_cons_self _ _),
        (List.nodup_cons.mp hcons).1⟩
    have hA := foldl_releaseOne_not_mem tick L1 fs fname hnm.1
    have hAnd := foldl_releaseOne_nodup tick L1 fs hnd
    rw [List.foldl_append] at hre
    constructor
    · intro hw
      rcases releaseOne_cases tick (L1.foldl (releaseOne tick) fs) fname with
        ⟨_, heq⟩ | ⟨p2, o, d, rest, hw2, heq⟩
      · have hB := foldl_releaseOne_not_mem tick L2
          (releaseOne tick (L1.foldl (releaseOne tick) fs) fname) fname hnm.2
        rw [hre]
        show alookup fname (L2.foldl (releaseOne tick) _).locks = none ∧
          (L2.foldl (releaseOne tick) _).getWaiting fname = []
        rw [hB.1, hB.2, heq]
        constructor
        · exact alookup_aerase_self fname hAnd
        · show (alookup fname (aset fname [] _)).getD [] = []
          rw [alookup_aset_self]
          rfl
      · rw [hA.2, hw] at hw2
        exact absurd hw2.symm (List.cons_ne_nil _ _)
    · intro p2 o d rest hw
      rcases releaseOne_cases tick (L1.foldl (releaseOne tick) fs) fname with
        ⟨hw2, heq⟩ | ⟨p3, o3, d3, rest3, hw2, heq⟩
      · rw [hA.2, hw] at hw2
        exact absurd hw2 (List.cons_ne_nil _ _)
      · rw [hA.2, hw] at hw2
        injection hw2 with hhead htail
        injection hhead with hp hod
        injection hod with ho hd
        subst hp
        subst ho
        subst hd
        subst htail
        have hB := foldl_releaseOne_not_mem tick L2
          (releaseOne tick (L1.foldl (releaseOne tick) fs) fname) fname hnm.2
        rw [hre]
        refine ⟨?_, ?_, ?_⟩
        · show alookup fname (L2.foldl (releaseOne tick) _).locks = some (p2, tick + d)
          rw [hB.1, heq]
          exact alookup_aset_self _ _ _
        · show (L2.foldl (releaseOne tick) _).getWaiting fname = rest
          rw [hB.2, heq]
          show (alookup fname (aset fname rest _)).getD [] = rest
          rw [alookup_aset_self]
          rfl
        · refine foldl_releaseOne_log_mono tick L2 _ _ ?_
          rw [heq]
          exact List.mem_append_right _ (List.mem_singleton.mpr rfl)
  · intro p r hl hgt
    have h := foldl_releaseOne_not_mem tick
      ((fs.locks.filter (fun kv => kv.2.2 ≤ tick)).map Prod.fst) fs fname
      (hnotmemL p r hl hgt)
    rw [hre]
    exact ⟨h.1.trans hl, h.2⟩
  · intro hl
    have h := foldl_releaseOne_not_mem tick
      ((fs.locks.filter (fun kv => kv.2.2 ≤ tick)).map Prod.fst) fs fname
      (hnone hl)
    rw [hre]
    exact ⟨h.1.trans hl, h.2⟩

/-- Concrete file-simulator state for exercising `release_expired`: fileA
locked until tick 2 with one waiter, fileB locked until tick 11. -/
def c4fs : FileSimulator :=
  (((mkFileSimulator.request 1 "fileA" "w" 0 2).2.request 2 "fileA" "r" 0 1).2.request
    3 "fileB" "w" 1 10).2

theorem release_expired_spec_witness :
    alookup "fileA" (c4fs.release_expired 2).locks = some (2, 2 + 1) ∧
    (c4fs.release_expired 2).getWaiting "fileA" = [] ∧
    (2, 2, "fileA", "r", "granted_from_queue") ∈ (c4fs.release_expired 2).log ∧
    alookup "fileB" (c4fs.release_expired 2).locks = some (3, 11) ∧
    (c4fs.release_expired 2).getWaiting "fileB" = c4fs.getWaiting "fileB" := by
  have h := release_expired_spec c4fs 2 "fileA" (by decide)
  have h2 := release_expired_spec c4fs 2 "fileB" (by decide)
  have hA := (h.1 1 2 (by decide) (by decide)).2 2 "r" 1 [] (by decide)
  have hB := h2.2.1 3 11 (by decide) (by decide)
  exact ⟨hA.1, hA.2.1, hA.2.2, hB.1, hB.2⟩

-- -------------------------
-- Zero frame capacity (C5)
-- -------------------------

/-- C5 (code bug): constructing a `MemoryManager` with zero frames succeeds
silently — `__init__` performs no validation — and the failure surfaces only
later, as a runtime error inside `load_page` (popping the empty FIFO queue)
on the first `access_page` miss, not as a configuration error at
construction. -/
theorem zero_frames_faults_at_access_not_construction :
    (mkMemoryManager 0 "FIFO").num_frames = 0 ∧
    (mkMemoryManager 0 "FIFO").replacement = "FIFO" ∧
    (mkMemoryManager 0 "FIFO").access_page 1 0 0 = none ∧
    (mkMemoryManager 0 "LRU").access_page 1 0 0 = none := by
  refine ⟨rfl, by decide, by decide, by decide⟩

-- -------------------------
-- Non-positive CPU demand (C6)
-- -------------------------

/-- C6 is refuted on the code: the single process has total CPU demand 0, yet
the completed run ends with `cpu_busy_ticks = 1` — the engine executes
`remaining -= 1` and increments `cpu_busy_ticks` before its completion check —
and two total ticks (the first dispatch tick is consumed by the initial page
fault), not zero CPU ticks consumed on the first dispatch tick. -/
theorem zero_cpu_process_consumes_a_busy_tick :
    (Simulator.runLoop (fun _ => 0) 1000 6
      (mkSimulator (.rr ⟨2, []⟩) (mkMemoryManager 4 "FIFO") 2
        [mkProcess 1 0 0 0 1 []])).map
      (fun st => (st.cpu_busy_ticks, st.total_ticks, st.finished,
        Simulator.loopCond 1000 st)) = some (1, 2, [1], false) := by
  decide

/-- C6 amended: a running process with non-positive remaining CPU demand
completes on its first dispatch tick whose memory access hits and that has no
matching I/O event — but the engine still executes the one CPU unit for it,
so it reaches the finished list with `cpu_busy_ticks` incremented by exactly
one on its behalf, `remaining` decremented once more, and `finish_time` set
to the advanced clock. -/
theorem nonpositive_cpu_completes_with_one_busy_tick
    (rng : Nat → Nat) (st : Simulator) (pid : Nat) (p : Process)
    (hp : alookup pid st.procs = some p)
    (hpid : p.pid = pid)
    (hrem : p.remaining ≤ 0)
    (hpages : ¬ p.pages = 0)
    (hhit : ∃ fr, alookup (pid, rng st.rngCount % p.pages) st.mem.frame_map = some fr)
    (hio : ioNow p st.time = []) :
    ∃ st2, st.runBody rng pid = some st2 ∧
      st2.finished = st.finished ++ [pid] ∧
      st2.cpu_busy_ticks = st.cpu_busy_ticks + 1 ∧
      st2.total_ticks = st.total_ticks + 1 ∧
      st2.running = none ∧
      st2.time = st.time + 1 ∧
      alookup pid st2.procs = some { p with
        remaining := p.remaining - 1
        finish_time := some (st.time + 1) } := by
  obtain ⟨fr, hfr⟩ := hhit
  have hred : st.runBody rng pid = some { st with
      procs := aset pid { p with remaining := p.remaining - 1, finish_time := some (st.time + 1) }
        (aset pid { p with remaining := p.remaining - 1 } (aset pid p st.procs))
      mem := { st.mem with
        time := st.time
        last_used := aset (pid, rng st.rngCount % p.pages) st.time st.mem.last_used }
      time := st.time + 1
      rngCount := st.rngCount + 1
      cpu_busy_ticks := st.cpu_busy_ticks + 1
      total_ticks := st.total_ticks + 1
      finished := st.finished ++ [pid]
      running := none } := by
    simp only [Simulator.runBody, hp, if_neg hpages, MemoryManager.access_page, hfr, hio,
      processIOs, Bool.not_true, Bool.false_eq_true, if_false, Simulator.setProc, hpid]
    rw [if_pos (show p.remaining - 1 ≤ 0 by omega)]
  refine ⟨_, hred, rfl, rfl, rfl, rfl, rfl, ?_⟩
  rw [alookup_aset_self]

/-- Engine state one iteration into the zero-CPU-demand run: the lone page is
now resident and the process is dispatched with `remaining = 0`. -/
def c6st : Simulator :=
  (Simulator.runLoop (fun _ => 0) 1000 1
    (mkSimulator (.rr ⟨2, []⟩) (mkMemoryManager 4 "FIFO") 2
      [mkProcess 1 0 0 0 1 []])).getD
    (mkSimulator (.rr ⟨2, []⟩) (mkMemoryManager 4 "FIFO") 2 [])

theorem nonpositive_cpu_completes_with_one_busy_tick_witness :
    ∃ st2, c6st.runBody (fun _ => 0) 1 = some st2 ∧
      st2.finished = c6st.finished ++ [1] ∧
      st2.cpu_busy_ticks = c6st.cpu_busy_ticks + 1 ∧
      st2.total_ticks = c6st.total_ticks + 1 ∧
      st2.running = none ∧
      st2.time = c6st.time + 1 ∧
      alookup 1 st2.procs = some
        { (alookup 1 c6st.procs).getD (mkProcess 1 0 0 0 1 []) with
          remaining := ((alookup 1 c6st.procs).getD (mkProcess 1 0 0 0 1 [])).remaining - 1
          finish_time := some (c6st.time + 1) } :=
  nonpositive_cpu_completes_with_one_busy_tick (fun _ => 0) c6st 1
    ((alookup 1 c6st.procs).getD (mkProcess 1 0 0 0 1 []))
    (by decide) (by decide) (by decide) (by decide) ⟨0, by decide⟩ (by decide)

-- -------------------------
-- Metrics (C7)
-- -------------------------

theorem sum_map_intCast (f : Process → Int) (l : List Process) :
    (((l.map f).sum : Int) : ℚ) = (l.map (fun p => ((f p : Int) : ℚ))).sum := by
  induction l with
  | nil => simp
  | cons x xs ih => simp [ih]

theorem clampedWaiting_eq_max (p : Process) :
    clampedWaiting p = max 0 (turnaroundOf p - p.total_cpu) := by
  rw [clampedWaiting]
  rcases le_total 0 (turnaroundOf p - p.total_cpu) with h | h
  · rw [if_pos h, max_eq_right h]
  · rcases lt_or_eq_of_le h with h2 | h2
    · rw [if_neg (by omega), max_eq_left h]
    · rw [← h2]
      simp

/-- C7: `compute_metrics` computes, per finished process, `turnaround =
finish_time - arrival` and `waiting = max 0 (turnaround - total_cpu)`; the
averages are the arithmetic means over the finished processes and default to
0 when none finished; and CPU utilization is `cpu_busy_ticks / max 1
total_ticks * 100`, so no division by zero occurs. -/
theorem compute_metrics_spec (st : Simulator) :
    (∀ p ∈ st.finishedProcs, p.finish_time.isSome →
      turnaroundOf p = p.finish_time.getD 0 - p.arrival ∧
      clampedWaiting p = max 0 (p.finish_time.getD 0 - p.arrival - p.total_cpu)) ∧
    (st.compute_metrics).1.avg_turnaround_time =
      (if st.finishedProcs.length = 0 then 0
        else (st.finishedProcs.map (fun p => (turnaroundOf p : ℚ))).sum /
          (st.finishedProcs.length : ℚ)) ∧
    (st.compute_metrics).1.avg_waiting_time =
      (if st.finishedProcs.length = 0 then 0
        else (st.finishedProcs.map
            (fun p => ((max 0 (turnaroundOf p - p.total_cpu) : Int) : ℚ))).sum /
          (st.finishedProcs.length : ℚ)) ∧
    (st.compute_metrics).1.cpu_utilization_percent =
      (st.cpu_busy_ticks : ℚ) / ((max 1 st.total_ticks : Int) : ℚ) * 100 ∧
    (st.compute_metrics).1.time_elapsed = st.time ∧
    (st.compute_metrics).1.finished_count = st.finishedProcs.length := by
  refine ⟨?_, ?_, ?_, rfl, rfl, rfl⟩
  · intro p _ hf
    obtain ⟨f, hf⟩ := Option.isSome_iff_exists.mp hf
    constructor
    · rw [turnaroundOf, hf]
      rfl
    · rw [clampedWaiting_eq_max, turnaroundOf, hf]
      rfl
  · simp only [Simulator.compute_metrics]
    by_cases h : st.finishedProcs.length = 0
    · rw [if_pos h, if_pos h]
    · rw [if_neg h, if_neg h, sum_map_intCast]
  · simp only [Simulator.compute_metrics]
    have hmaps : (st.finishedProcs.map
        (fun p => { p with waiting_time := clampedWaiting p })).map
        (fun p => p.waiting_time) =
        st.finishedProcs.map (fun p => max 0 (turnaroundOf p - p.total_cpu)) := by
      rw [List.map_map]
      have hfun : ((fun p : Process => p.waiting_time) ∘
          (fun p : Process => { p with waiting_time := clampedWaiting p })) =
          fun p : Process => max 0 (turnaroundOf p - p.total_cpu) :=
        funext fun p => clampedWaiting_eq_max p
      rw [hfun]
    rw [hmaps]
    by_cases h : st.finishedProcs.length = 0
    · rw [if_pos h, if_pos h]
    · rw [if_neg h, if_neg h, sum_map_intCast]

theorem compute_metrics_spec_witness :
    ((mkSimulator (.rr ⟨2, []⟩) (mkMemoryManager 1 "FIFO") 2
        []).compute_metrics).1.cpu_utilization_percent =
      ((mkSimulator (.rr ⟨2, []⟩) (mkMemoryManager 1 "FIFO") 2 []).cpu_busy_ticks : ℚ) /
        ((max 1 (mkSimulator (.rr ⟨2, []⟩) (mkMemoryManager 1 "FIFO") 2
          []).total_ticks : Int) : ℚ) * 100 ∧
    ((mkSimulator (.rr ⟨2, []⟩) (mkMemoryManager 1 "FIFO") 2
        []).compute_metrics).1.time_elapsed =
      (mkSimulator (.rr ⟨2, []⟩) (mkMemoryManager 1 "FIFO") 2 []).time :=
  ⟨(compute_metrics_spec (mkSimulator (.rr ⟨2, []⟩) (mkMemoryManager 1 "FIFO") 2
      [])).2.2.2.1,
   (compute_metrics_spec (mkSimulator (.rr ⟨2, []⟩) (mkMemoryManager 1 "FIFO") 2
      [])).2.2.2.2.1⟩

-- -------------------------
-- SJF preemptive flag (C8)
-- -------------------------

/-- One call of the scheduler interface, as the engine makes them. -/
inductive SJFOp where
  | add (p : Process)
  | tick
  | hasReady
  deriving Repr

/-- Observable result of one scheduler call. -/
inductive SJFOut where
  | unit
  | popped (r : Option Nat)
  | ready (b : Bool)
  deriving DecidableEq, Repr

/-- Run a sequence of calls against an `SJFScheduler`, collecting the
results and the final scheduler. -/
def SJFScheduler.applyOps (s : SJFScheduler) : List SJFOp → List SJFOut × SJFScheduler
  | [] => ([], s)
  | SJFOp.add p :: rest =>
    let r := (s.add_process p).applyOps rest
    (SJFOut.unit :: r.1, r.2)
  | SJFOp.tick :: rest =>
    let t := s.tick
    let r := t.2.applyOps rest
    (SJFOut.popped t.1 :: r.1, r.2)
  | SJFOp.hasReady :: rest =>
    let r := s.applyOps rest
    (SJFOut.ready s.has_ready :: r.1, r.2)

theorem sjf_applyOps_flag_irrelevant (ops : List SJFOp) :
    ∀ (b1 b2 : Bool) (h : List HeapEntry),
    (SJFScheduler.applyOps ⟨b1, h⟩ ops).1 = (SJFScheduler.applyOps ⟨b2, h⟩ ops).1 ∧
    (SJFScheduler.applyOps ⟨b1, h⟩ ops).2.heap =
      (SJFScheduler.applyOps ⟨b2, h⟩ ops).2.heap := by
  induction ops with
  | nil => exact fun b1 b2 h => ⟨rfl, rfl⟩
  | cons op rest ih =>
    intro b1 b2 h
    cases op with
    | add p =>
      have hr := ih b1 b2 (heappush h (p.remaining, p.arrival, p.pid))
      simp only [SJFScheduler.applyOps, SJFScheduler.add_process]
      exact ⟨by rw [hr.1], hr.2⟩
    | tick =>
      cases h with
      | nil =>
        have hr := ih b1 b2 []
        simp only [SJFScheduler.applyOps, SJFScheduler.tick]
        exact ⟨by rw [hr.1], hr.2⟩
      | cons e hs =>
        cases hp : heappop (e :: hs) with
        | none =>
          have hr := ih b1 b2 (e :: hs)
          simp only [SJFScheduler.applyOps, SJFScheduler.tick, hp]
          exact ⟨by rw [hr.1], hr.2⟩
        | some pr =>
          have hr := ih b1 b2 pr.2
          simp only [SJFScheduler.applyOps, SJFScheduler.tick, hp]
          exact ⟨by rw [hr.1], hr.2⟩
    | hasReady =>
      have hr := ih b1 b2 h
      simp only [SJFScheduler.applyOps, SJFScheduler.has_ready]
      exact ⟨by rw [hr.1], hr.2⟩

/-- C8: the `preemptive` flag of `SJFScheduler` is stored but never consulted:
for every sequence of `add_process` / `tick` / `has_ready` calls on identical
process inputs, the scheduler constructed with preemptive=true produces
exactly the same results and the same final heap as the one constructed with
preemptive=false. -/
theorem sjf_preemptive_flag_no_effect (ops : List SJFOp) :
    (SJFScheduler.applyOps ⟨true, []⟩ ops).1 =
      (SJFScheduler.applyOps ⟨false, []⟩ ops).1 ∧
    (SJFScheduler.applyOps ⟨true, []⟩ ops).2.heap =
      (SJFScheduler.applyOps ⟨false, []⟩ ops).2.heap :=
  sjf_applyOps_flag_irrelevant ops true false []

theorem sjf_preemptive_flag_no_effect_witness :
    (SJFScheduler.applyOps ⟨true, []⟩
      [SJFOp.add (mkProcess 1 0 5 0 1 []), SJFOp.add (mkProcess 2 0 3 0 1 []),
        SJFOp.hasReady, SJFOp.tick, SJFOp.tick, SJFOp.tick]).1 =
    (SJFScheduler.applyOps ⟨false, []⟩
      [SJFOp.add (mkProcess 1 0 5 0 1 []), SJFOp.add (mkProcess 2 0 3 0 1 []),
        SJFOp.hasReady, SJFOp.tick, SJFOp.tick, SJFOp.tick]).1 ∧
    (SJFScheduler.applyOps ⟨true, []⟩
      [SJFOp.add (mkProcess 1 0 5 0 1 []), SJFOp.add (mkProcess 2 0 3 0 1 []),
        SJFOp.hasReady, SJFOp.tick, SJFOp.tick, SJFOp.tick]).2.heap =
    (SJFScheduler.applyOps ⟨false, []⟩
      [SJFOp.add (mkProcess 1 0 5 0 1 []), SJFOp.add (mkProcess 2 0 3 0 1 []),
        SJFOp.hasReady, SJFOp.tick, SJFOp.tick, SJFOp.tick]).2.heap :=
  sjf_preemptive_flag_no_effect
    [SJFOp.add (mkProcess 1 0 5 0 1 []), SJFOp.add (mkProcess 2 0 3 0 1 []),
      SJFOp.hasReady, SJFOp.tick, SJFOp.tick, SJFOp.tick]

-- -------------------------
-- Denied I/O events and exact-time matching (C9)
-- -------------------------

/-- C9 is refuted: process 1 carries two I/O events at tick 1 on fileA (the
second is denied and later promoted from the queue, so a lock held until tick
12 survives process 1's completion); process 2's event at tick 6 is then
denied at tick 6 with no other ready process, and since the engine does not
advance time on a denial, process 2 is redispatched at the SAME tick 6 where
exact-equality matching succeeds again: the denied event IS re-attempted.
After 8 loop iterations time is still 6, the conflict counter is 3, and the
'queued' entry for process 2's event appears twice in the log. -/
theorem denied_io_event_reattempted_at_same_tick :
    (Simulator.runLoop (fun _ => 0) 200 8
      (mkSimulator (.rr ⟨2, []⟩) (mkMemoryManager 4 "FIFO") 2
        [mkProcess 1 0 2 0 1 [⟨1, "fileA", "r", 1⟩, ⟨1, "fileA", "w", 10⟩],
         mkProcess 2 0 5 0 1 [⟨6, "fileA", "r", 1⟩]])).map
      (fun st => (st.time, st.fs.conflicts,
        (st.fs.log.filter (fun e => e = (6, 2, "fileA", "r", "queued"))).length))
      = some (6, 3, 2) := by
  decide

/-- C9 amended: the engine matches I/O events only by exact equality of their
scheduled time with the current tick (`ioNow` selects exactly the events with
`io.time = t`), so a denied event is re-attempted only at the same tick; when
another process intervenes and the denied process is redispatched at a
strictly later tick, the event no longer matches and is never re-attempted —
in the concrete run, process 2's denied request is logged exactly once and
its remaining CPU is never decremented by that event's duration; process 1's
queued event is promoted by `release_expired` via `granted_from_queue`, and
its remaining is likewise never decremented by that duration (it finishes at
0, having consumed only its first granted I/O and one CPU tick). -/
theorem io_match_is_exact_time_equality :
    (∀ (p : Process) (t : Int) (io : IOOperation),
      io ∈ ioNow p t ↔ io ∈ p.io_ops ∧ io.time = t) ∧
    (Simulator.runLoop (fun _ => 0) 200 20
      (mkSimulator (.rr ⟨2, []⟩) (mkMemoryManager 4 "FIFO") 2
        [mkProcess 1 0 2 0 1 [⟨1, "fileA", "r", 1⟩, ⟨1, "fileA", "w", 10⟩],
         mkProcess 2 0 5 0 1 [⟨4, "fileA", "r", 1⟩]])).map
      (fun st => (Simulator.loopCond 200 st, st.fs.conflicts,
        (st.fs.log.filter (fun e => e.2.1 = 2)).length,
        (st.fs.log.filter
          (fun e => e = (2, 1, "fileA", "w", "granted_from_queue"))).length,
        (alookup 1 st.procs).map (fun p => (p.remaining, p.finish_time)),
        st.finished))
      = some (false, 2, 1, 1, some (0, some 5), [1, 2]) := by
  constructor
  · intro p t io
    rw [ioNow, List.mem_filter]
    simp
  · rfl

theorem io_match_is_exact_time_equality_witness :
    (⟨4, "fileA", "r", 1⟩ : IOOperation) ∈
      ioNow (mkProcess 2 0 5 0 1 [⟨4, "fileA", "r", 1⟩]) 4 ∧
    (⟨4, "fileA", "r", 1⟩ : IOOperation) ∉
      ioNow (mkProcess 2 0 5 0 1 [⟨4, "fileA", "r", 1⟩]) 5 :=
  ⟨(io_match_is_exact_time_equality.1 (mkProcess 2 0 5 0 1 [⟨4, "fileA", "r", 1⟩]) 4
      ⟨4, "fileA", "r", 1⟩).mpr ⟨by decide, rfl⟩,
   fun hc => by
    have hco := (io_match_is_exact_time_equality.1
      (mkProcess 2 0 5 0 1 [⟨4, "fileA", "r", 1⟩]) 5 ⟨4, "fileA", "r", 1⟩).mp hc
    exact absurd hco.2 (by decide)⟩

-- -------------------------
-- Clock versus tick accounting (C10)
-- -------------------------

/-- All scheduled I/O durations of the stored processes are nonnegative. -/
def durOK (procs : List (Nat × Process)) : Prop :=
  ∀ pid p, alookup pid procs = some p → ∀ io ∈ p.io_ops, 0 ≤ io.duration

theorem durOK_aset {procs : List (Nat × Process)} {k : Nat} {q : Process}
    (h : durOK procs) (hq : ∀ io ∈ q.io_ops, 0 ≤ io.duration) :
    durOK (aset k q procs) := by
  intro pid p hl io hio
  by_cases hk : pid = k
  · subst hk
    rw [alookup_aset_self] at hl
    cases hl
    exact hq io hio
  · rw [alookup_aset_ne _ _ hk] at hl
    exact h pid p hl io hio

/-- Granted I/O events advance the running clock by their (nonnegative)
durations and never touch the process's event list. -/
theorem processIOs_time_mono :
    ∀ (ios : List IOOperation) (fs : FileSimulator) (time : Int) (p : Process),
    (∀ io ∈ ios, 0 ≤ io.duration) →
    time ≤ (processIOs fs time p ios).2.1 ∧
    (processIOs fs time p ios).2.2.1.io_ops = p.io_ops := by
  intro ios
  induction ios with
  | nil => exact fun fs time p _ => ⟨le_refl _, rfl⟩
  | cons io rest ih =>
    intro fs time p h
    have hd : 0 ≤ io.duration := h io (List.mem_cons_self _ _)
    have hrest : ∀ io2 ∈ rest, 0 ≤ io2.duration :=
      fun io2 hio2 => h io2 (List.mem_cons_of_mem _ hio2)
    cases hgr : (fs.request p.pid io.filename io.op time io.duration).1.1 with
    | false =>
      simp only [processIOs, hgr, Bool.false_eq_true, if_false]
      exact ⟨le_refl _, by trivial⟩
    | true =>
      simp only [processIOs, hgr, if_true]
      have hr := ih (fs.request p.pid io.filename io.op time io.duration).2
        (time + io.duration) { p with remaining := p.remaining - io.duration } hrest
      exact ⟨le_trans (by omega) hr.1, hr.2⟩

/-- One execution of the per-tick body for the running process preserves the
duration invariant and never decreases `time - total_ticks`. -/
theorem runBody_mono (rng : Nat → Nat) (pid : Nat) (st st2 : Simulator)
    (hdur : durOK st.procs) (hstep : st.runBody rng pid = some st2) :
    durOK st2.procs ∧ st.time - st.total_ticks ≤ st2.time - st2.total_ticks := by
  cases hp : alookup pid st.procs with
  | none =>
    simp only [Simulator.runBody, hp] at hstep
    exact Option.noConfusion hstep
  | some p =>
    by_cases hpg : p.pages = 0
    · simp only [Simulator.runBody, hp, if_pos hpg] at hstep
      exact Option.noConfusion hstep
    · simp only [Simulator.runBody, hp, if_neg hpg, Simulator.setProc] at hstep
      cases hacc : st.mem.access_page pid (rng st.rngCount % p.pages) st.time with
      | none =>
        rw [hacc] at hstep
        exact Option.noConfusion hstep
      | some bm =>
        obtain ⟨present, mem2⟩ := bm
        simp only [hacc] at hstep
        cases present with
        | false =>
          simp only [Bool.not_false, if_true] at hstep
          injection hstep with hst2
          subst hst2
          refine ⟨hdur, ?_⟩
          simp only []
          omega
        | true =>
          simp only [Bool.not_true, Bool.false_eq_true, if_false] at hstep
          have hios : ∀ io ∈ ioNow p st.time, 0 ≤ io.duration := by
            intro io hio
            have hmem : io ∈ p.io_ops := List.mem_of_mem_filter hio
            exact hdur pid p hp io hmem
          have hpio := processIOs_time_mono (ioNow p st.time) st.fs st.time p hios
          have htmono := hpio.1
          have hioops : ∀ io2 ∈ (processIOs st.fs st.time p (ioNow p st.time)).2.2.1.io_ops,
              0 ≤ io2.duration := by
            rw [hpio.2]
            intro io2 hio2
            exact hdur pid p hp io2 hio2
          cases hden : (processIOs st.fs st.time p (ioNow p st.time)).2.2.2 with
          | true =>
            simp only [hden, if_true] at hstep
            injection hstep with hst2
            subst hst2
            refine ⟨durOK_aset hdur hioops, ?_⟩
            simp only []
            omega
          | false =>
            simp only [hden, Bool.false_eq_true, if_false] at hstep
            by_cases hfin : (processIOs st.fs st.time p (ioNow p st.time)).2.2.1.remaining - 1 ≤ 0
            · rw [if_pos hfin] at hstep
              injection hstep with hst2
              subst hst2
              refine ⟨durOK_aset (durOK_aset (durOK_aset hdur hioops) hioops) hioops, ?_⟩
              simp only []
              omega
            · rw [if_neg hfin] at hstep
              by_cases hrr : (st.sched.isRR &&
                  decide (st.rr_quantum_left - 1 ≤ 0)) = true
              · rw [if_pos hrr] at hstep
                injection hstep with hst2
                subst hst2
                refine ⟨durOK_aset (durOK_aset hdur hioops) hioops, ?_⟩
                simp only []
                omega
              · rw [if_neg hrr] at hstep
                injection hstep with hst2
                subst hst2
                refine ⟨durOK_aset (durOK_aset hdur hioops) hioops, ?_⟩
                simp only []
                omega

/-- One full loop iteration preserves the duration invariant and never
decreases `time - total_ticks`. -/
theorem stepSim_mono (rng : Nat → Nat) (st st2 : Simulator)
    (hdur : durOK st.procs) (hstep : st.stepSim rng = some st2) :
    durOK st2.procs ∧ st.time - st.total_ticks ≤ st2.time - st2.total_ticks := by
  simp only [Simulator.stepSim, Simulator.admitArrivals, Simulator.setProc] at hstep
  cases hrun : st.running with
  | some pid =>
    simp only [hrun] at hstep
    have hr := runBody_mono rng pid _ st2 (by exact hdur) hstep
    exact ⟨hr.1, hr.2⟩
  | none =>
    simp only [hrun] at hstep
    cases hts : (admitPending st.time st.sched st.pending).1.tick with
    | mk o sch2 =>
      simp only [hts] at hstep
      cases o with
      | none =>
        simp only [] at hstep
        injection hstep with hst2
        subst hst2
        refine ⟨hdur, ?_⟩
        simp only []
        omega
      | some pid =>
        simp only [] at hstep
        cases hp : alookup pid st.procs with
        | none =>
          simp only [hp] at hstep
          exact Option.noConfusion hstep
        | some p =>
          simp only [hp] at hstep
          have hioeq : (if p.start_time = none
              then { p with start_time := some st.time } else p).io_ops = p.io_ops := by
            by_cases hs : p.start_time = none
            · rw [if_pos hs]
            · rw [if_neg hs]
          have hdur2 : durOK (aset (if p.start_time = none
              then { p with start_time := some st.time } else p).pid
              (if p.start_time = none then { p with start_time := some st.time } else p)
              st.procs) := by
            refine durOK_aset hdur ?_
            rw [hioeq]
            intro io hio
            exact hdur pid p hp io hio
          have hr := runBody_mono rng pid _ st2 (by exact hdur2) hstep
          exact ⟨hr.1, hr.2⟩

/-- Any number of loop iterations preserves the duration invariant and never
decreases `time - total_ticks`. -/
theorem runLoop_mono (rng : Nat → Nat) (mt : Int) :
    ∀ (fuel : Nat) (st st2 : Simulator), durOK st.procs →
    Simulator.runLoop rng mt fuel st = some st2 →
    durOK st2.procs ∧ st.time - st.total_ticks ≤ st2.time - st2.total_ticks := by
  intro fuel
  induction fuel with
  | zero =>
    intro st st2 hdur hrun
    simp only [Simulator.runLoop, Option.some.injEq] at hrun
    subst hrun
    exact ⟨hdur, le_refl _⟩
  | succ n ih =>
    intro st st2 hdur hrun
    rw [Simulator.runLoop] at hrun
    by_cases hc : Simulator.loopCond mt st = true
    · rw [if_pos hc] at hrun
      cases hs : st.stepSim rng with
      | none =>
        rw [hs] at hrun
        exact Option.noConfusion hrun
      | some st1 =>
        rw [hs] at hrun
        have h1 := stepSim_mono rng st st1 hdur hs
        have h2 := ih st1 st2 h1.1 hrun
        exact ⟨h2.1, le_trans h1.2 h2.2⟩
    · rw [if_neg hc] at hrun
      injection hrun with hst2
      subst hst2
      exact ⟨hdur, le_refl _⟩

theorem durOK_mkSimulator (sched : Sched) (mem : MemoryManager) (q : Int)
    (procs : List Process)
    (h : ∀ p ∈ procs, ∀ io ∈ p.io_ops, 0 ≤ io.duration) :
    durOK (mkSimulator sched mem q procs).procs := by
  intro pid p hl io hio
  have hmem := alookup_some_mem hl
  obtain ⟨q0, hq0, he⟩ := List.mem_map.mp hmem
  injection he with he1 he2
  subst he2
  exact h q0 hq0 io hio

/-- C10: granted I/O advances the clock without counting ticks; the invariant
`time >= total_ticks` holds in every reachable engine state (for workloads
with nonnegative I/O durations) since each loop iteration only grows
`time - total_ticks`; the concrete run with one granted I/O of duration 3
ends with `time_elapsed = 6 > total_ticks = 3` reported by the metrics, whose
CPU utilization is computed against `total_ticks` (2 busy of 3 total gives
200/3 percent), not against the elapsed simulated time. -/
theorem time_dominates_total_ticks :
    (∀ (rng : Nat → Nat) (mt : Int) (fuel : Nat) (st st2 : Simulator),
      durOK st.procs → Simulator.runLoop rng mt fuel st = some st2 →
      durOK st2.procs ∧
      st.time - st.total_ticks ≤ st2.time - st2.total_ticks) ∧
    (∀ (rng : Nat → Nat) (mt : Int) (fuel : Nat) (sched : Sched)
      (mem : MemoryManager) (q : Int) (procs : List Process) (st2 : Simulator),
      (∀ p ∈ procs, ∀ io ∈ p.io_ops, 0 ≤ io.duration) →
      Simulator.runLoop rng mt fuel (mkSimulator sched mem q procs) = some st2 →
      st2.total_ticks ≤ st2.time) ∧
    (Simulator.runLoop (fun _ => 0) 200 10
      (mkSimulator (.rr ⟨2, []⟩) (mkMemoryManager 4 "FIFO") 2
        [mkProcess 1 0 5 0 1 [⟨1, "fileA", "r", 3⟩]])).map
      (fun st => (st.time, st.total_ticks, st.cpu_busy_ticks,
        (st.compute_metrics).1.time_elapsed))
      = some (6, 3, 2, 6) ∧
    ((Simulator.runLoop (fun _ => 0) 200 10
      (mkSimulator (.rr ⟨2, []⟩) (mkMemoryManager 4 "FIFO") 2
        [mkProcess 1 0 5 0 1 [⟨1, "fileA", "r", 3⟩]])).getD
      (mkSimulator (.rr ⟨2, []⟩) (mkMemoryManager 4 "FIFO") 2
        [])).compute_metrics.1.cpu_utilization_percent =
      ((2 : Int) : ℚ) / ((max 1 (3 : Int) : Int) : ℚ) * 100 := by
  refine ⟨fun rng mt fuel st st2 hdur hrun => runLoop_mono rng mt fuel st st2 hdur hrun,
    ?_, by rfl, by rfl⟩
  intro rng mt fuel sched mem q procs st2 h hrun
  have hm := runLoop_mono rng mt fuel (mkSimulator sched mem q procs) st2
    (durOK_mkSimulator sched mem q procs h) hrun
  have h0 : (mkSimulator sched mem q procs).time -
      (mkSimulator sched mem q procs).total_ticks = 0 := rfl
  omega

theorem time_dominates_total_ticks_witness :
    ((Simulator.runLoop (fun _ => 0) 200 10
      (mkSimulator (.rr ⟨2, []⟩) (mkMemoryManager 4 "FIFO") 2
        [mkProcess 1 0 5 0 1 [⟨1, "fileA", "r", 3⟩]])).getD
      (mkSimulator (.rr ⟨2, []⟩) (mkMemoryManager 4 "FIFO") 2 [])).total_ticks ≤
    ((Simulator.runLoop (fun _ => 0) 200 10
      (mkSimulator (.rr ⟨2, []⟩) (mkMemoryManager 4 "FIFO") 2
        [mkProcess 1 0 5 0 1 [⟨1, "fileA", "r", 3⟩]])).getD
      (mkSimulator (.rr ⟨2, []⟩) (mkMemoryManager 4 "FIFO") 2 [])).time :=
  time_dominates_total_ticks.2.1 (fun _ => 0) 200 10 (.rr ⟨2, []⟩)
    (mkMemoryManager 4 "FIFO") 2 [mkProcess 1 0 5 0 1 [⟨1, "fileA", "r", 3⟩]] _
    (by decide) (by rfl)
